import Mathlib

/-
Verification development for the CrowdDetector API (src/app.py).

The endpoint logic is embedded shallowly:
  - extract_first_json (app.py lines 44-62): the greedy first-open-brace to
    last-close-brace candidate extraction, a strict JSON parse of the
    candidate and a trailing-comma repair pass followed by a reparse.
  - analyze_image (app.py lines 98-199): upload validation (empty / oversize),
    then the post-model pipeline (extraction, normalization, HTTP statuses).
    The two external effects (building the image part and calling the vision
    model) are not logic; the model is entered at the point where the raw
    response text is in hand, so the handler is embedded as a function of the
    uploaded bytes, the declared content type and the raw model text.
  - The parsed JSON value is an inductive Json; Python dict / list / str /
    int / float / bool / None from json.loads are mirrored by obj / arr /
    str / num / fnum / bool / null.  Python floats are modelled as rationals
    (exact decimal values; IEEE 754 rounding, infinities and NaN are outside
    the model).  JSON number literals with a fraction or exponent part would
    decode to Python floats; the embedded parser covers the integer fragment
    of the number grammar and rejects float literals, and it likewise rejects
    the nonstandard NaN / Infinity literals and lone-surrogate escapes that
    CPython additionally tolerates.  These restrictions are flagged here once
    and apply to every theorem below that quantifies over parsed values.
-/

/- ===== basic characters and character classes ===== -/

/-- The opening curly bracket character. -/
def lcb : Char := Char.ofNat 123

/-- The closing curly bracket character. -/
def rcb : Char := Char.ofNat 125

/-- JSON whitespace, exactly the four characters the json module skips. -/
def isJsonWs (c : Char) : Bool := c = ' ' || c = '\t' || c = '\n' || c = '\r'

/-- Python regex and str.strip whitespace (ASCII part). -/
def isPyWs (c : Char) : Bool :=
  c = ' ' || c = '\t' || c = '\n' || c = '\r' || c = Char.ofNat 11 || c = Char.ofNat 12

/-- Drop leading JSON whitespace. -/
def skipWs (l : List Char) : List Char := l.dropWhile isJsonWs

/-- Numeric value of a decimal digit character. -/
def charVal (c : Char) : Nat := c.toNat - 48

/-- Lower-case hexadecimal digit characters, as json.dumps and repr emit them. -/
def hexDigitChar (n : Nat) : Char :=
  match n with
  | 0 => '0' | 1 => '1' | 2 => '2' | 3 => '3' | 4 => '4'
  | 5 => '5' | 6 => '6' | 7 => '7' | 8 => '8' | 9 => '9'
  | 10 => 'a' | 11 => 'b' | 12 => 'c' | 13 => 'd' | 14 => 'e' | _ => 'f'

/-- Value of a hexadecimal digit character, as accepted in a JSON u-escape. -/
def hexVal (c : Char) : Option Nat :=
  if '0' ≤ c ∧ c ≤ '9' then some (c.toNat - 48)
  else if 'a' ≤ c ∧ c ≤ 'f' then some (c.toNat - 87)
  else if 'A' ≤ c ∧ c ≤ 'F' then some (c.toNat - 55)
  else none

/- ===== the parsed JSON value (the Python object json.loads returns) ===== -/

mutual
inductive Json where
  | null : Json
  | bool : Bool → Json
  | num : Int → Json
  | fnum : Rat → Json
  | str : List Char → Json
  | arr : JsonList → Json
  | obj : JsonMembers → Json
inductive JsonList where
  | nil : JsonList
  | cons : Json → JsonList → JsonList
inductive JsonMembers where
  | nil : JsonMembers
  | cons : List Char → Json → JsonMembers → JsonMembers
end
deriving instance DecidableEq for Json, JsonList, JsonMembers

/-- Convert to an ordinary list, to state properties with Mathlib. -/
def JsonList.toList : JsonList → List Json
  | .nil => []
  | .cons x tl => x :: JsonList.toList tl

/-- Append an element at the end, as Python list building appends. -/
def JsonList.snoc : JsonList → Json → JsonList
  | .nil, x => .cons x .nil
  | .cons y tl, x => .cons y (JsonList.snoc tl x)

/-- Concatenation of element sequences. -/
def JsonList.append : JsonList → JsonList → JsonList
  | .nil, ys => ys
  | .cons x tl, ys => .cons x (JsonList.append tl ys)

/-- Whether a key occurs in the member sequence. -/
def hasKey : JsonMembers → List Char → Bool
  | .nil, _ => false
  | .cons k0 _ tl, k => if k0 = k then true else hasKey tl k

/-- Value stored under a key, first occurrence. -/
def getKV : JsonMembers → List Char → Option Json
  | .nil, _ => none
  | .cons k0 v tl, k => if k0 = k then some v else getKV tl k

/-- Python dict item assignment: an existing key keeps its position and takes
the new value, a new key is appended at the end.  This is how json.loads
builds objects, so duplicate keys in the text collapse to the last value. -/
def insertKV : JsonMembers → List Char → Json → JsonMembers
  | .nil, k, v => .cons k v .nil
  | .cons k0 v0 tl, k, v =>
    if k0 = k then .cons k0 v tl else .cons k0 v0 (insertKV tl k v)

/-- Concatenation of member sequences. -/
def JsonMembers.append : JsonMembers → JsonMembers → JsonMembers
  | .nil, ys => ys
  | .cons k v tl, ys => .cons k v (JsonMembers.append tl ys)

/- ===== decimal digits for serializing integers ===== -/

/-- Fuelled decimal digit emission; fuel n+1 always suffices for n. -/
def natDigitsGo : Nat → Nat → List Char
  | 0, _ => []
  | f+1, n =>
    if n < 10 then [hexDigitChar n]
    else natDigitsGo f (n / 10) ++ [hexDigitChar (n % 10)]

/-- Decimal digits of a natural number, most significant first. -/
def natToDigits (n : Nat) : List Char := natDigitsGo (n + 1) n

/-- Decimal rendering of an integer, as repr and json.dumps print it. -/
def intDigits (n : Int) : List Char :=
  if n < 0 then '-' :: natToDigits n.natAbs else natToDigits n.toNat

/-- Accumulate decimal digit characters into a natural number. -/
def digitsToNat (acc : Nat) (ds : List Char) : Nat :=
  ds.foldl (fun a d => 10 * a + charVal d) acc

/- ===== JSON serialization (the canonical re-serialization of a parsed
value used to state extraction idempotence; quote and backslash are escaped,
control characters become four-digit u-escapes, everything else is emitted
literally, as a JSON emitter may) ===== -/

/-- Escape one character of a JSON string literal. -/
def escChar (c : Char) : List Char :=
  if c = '"' then ['\\', '"']
  else if c = '\\' then ['\\', '\\']
  else if c.toNat < 32 then
    ['\\', 'u', '0', '0', hexDigitChar (c.toNat / 16), hexDigitChar (c.toNat % 16)]
  else [c]

/-- Escape a whole string body. -/
def escBody : List Char → List Char
  | [] => []
  | c :: r => escChar c ++ escBody r

/-- A JSON string literal with its quotes. -/
def dumpString (s : List Char) : List Char := '"' :: escBody s ++ ['"']

mutual
def dumps : Json → List Char
  | .null => "null".data
  | .bool true => "true".data
  | .bool false => "false".data
  | .num n => intDigits n
  | .fnum _ => "0".data
  | .str s => dumpString s
  | .arr xs => '[' :: dumpsList xs ++ [']']
  | .obj m => lcb :: dumpsMembers m ++ [rcb]
def dumpsList : JsonList → List Char
  | .nil => []
  | .cons x .nil => dumps x
  | .cons x tl => dumps x ++ ',' :: dumpsList tl
def dumpsMembers : JsonMembers → List Char
  | .nil => []
  | .cons k v .nil => dumpString k ++ ':' :: dumps v
  | .cons k v tl => (dumpString k ++ ':' :: dumps v) ++ ',' :: dumpsMembers tl
end

/- ===== strict JSON parsing (json.loads, integer-number fragment) ===== -/

/-- Decode a single-character escape of a JSON string. -/
def escDecode (c : Char) : Option Char :=
  if c = '"' then some '"'
  else if c = '\\' then some '\\'
  else if c = '/' then some '/'
  else if c = 'b' then some (Char.ofNat 8)
  else if c = 'f' then some (Char.ofNat 12)
  else if c = 'n' then some '\n'
  else if c = 'r' then some '\r'
  else if c = 't' then some '\t'
  else none

/-- Parse the body of a JSON string literal after the opening quote, in
strict mode: literal control characters are rejected, escapes are decoded,
u-escapes in the surrogate range are rejected (see the model notes above). -/
def parseStrBody : List Char → Option (List Char × List Char)
  | [] => none
  | c :: r =>
    if c = '"' then some ([], r)
    else if c = '\\' then
      match r with
      | [] => none
      | e :: r2 =>
        if e = 'u' then
          match r2 with
          | h1 :: h2 :: h3 :: h4 :: r3 =>
            match hexVal h1, hexVal h2, hexVal h3, hexVal h4 with
            | some a, some b, some c4, some d =>
              let n := 4096 * a + 256 * b + 16 * c4 + d
              if n < 55296 then
                (parseStrBody r3).map (fun p => (Char.ofNat n :: p.1, p.2))
              else if 57343 < n then
                (parseStrBody r3).map (fun p => (Char.ofNat n :: p.1, p.2))
              else none
            | _, _, _, _ => none
          | _ => none
        else
          match escDecode e with
          | some ch => (parseStrBody r2).map (fun p => (ch :: p.1, p.2))
          | none => none
    else if c.toNat < 32 then none
    else (parseStrBody r).map (fun p => (c :: p.1, p.2))

/-- True when the next character would extend an integer literal into a
float literal (which the scanner would hand to the float path). -/
def floatStart (l : List Char) : Bool :=
  match l with
  | [] => false
  | c :: _ => c = '.' || c = 'e' || c = 'E'

/-- Parse an unsigned JSON integer: a lone zero, or a nonzero leading digit
followed by the maximal run of digits.  A following fraction or exponent
marker means the number is a float, outside the model. -/
def parseNat (l : List Char) : Option (Nat × List Char) :=
  match l with
  | [] => none
  | c :: r =>
    if c = '0' then
      if floatStart r then none else some (0, r)
    else if c.isDigit then
      let rest := r.dropWhile Char.isDigit
      if floatStart rest then none
      else some (digitsToNat (charVal c) (r.takeWhile Char.isDigit), rest)
    else none

/-- Parse a JSON number (integer fragment), with optional leading minus. -/
def parseNumber (l : List Char) : Option (Json × List Char) :=
  match l with
  | [] => none
  | c :: r =>
    if c = '-' then (parseNat r).map (fun p => (Json.num (-(p.1 : Int)), p.2))
    else (parseNat l).map (fun p => (Json.num (p.1 : Int), p.2))

/-- The three mutually recursive entry points of the scanner: a value, the
members of an object after its opening brace, the elements of an array after
its opening bracket.  The accumulators mirror the Python dict and list being
built incrementally. -/
inductive ParseCall where
  | val : List Char → ParseCall
  | members : JsonMembers → List Char → ParseCall
  | elems : JsonList → List Char → ParseCall

/-- One fuelled scanner for all three entry points, a shallow embedding of
json.decoder scan_once: a value dispatches on its first character; object
members are quoted keys, a colon, a value, then a comma or closing brace;
array elements are values separated by commas up to a closing bracket.
Whitespace is skipped exactly where the scanner skips it.  Fuel only bounds
the recursion depth; 2*length+2 is always sufficient (each two fuel steps
consume at least one character). -/
def parseStep : Nat → ParseCall → Option (Json × List Char)
  | 0, _ => none
  | _+1, .val [] => none
  | f+1, .val (c :: r) =>
    if c = '"' then (parseStrBody r).map (fun p => (Json.str p.1, p.2))
    else if c = lcb then
      let r' := skipWs r
      if r'.head? = some rcb then some (Json.obj .nil, r'.tail)
      else parseStep f (.members .nil r')
    else if c = '[' then
      let r' := skipWs r
      if r'.head? = some ']' then some (Json.arr .nil, r'.tail)
      else parseStep f (.elems .nil r')
    else if c = 't' then
      match r with
      | 'r' :: 'u' :: 'e' :: rest => some (Json.bool true, rest)
      | _ => none
    else if c = 'f' then
      match r with
      | 'a' :: 'l' :: 's' :: 'e' :: rest => some (Json.bool false, rest)
      | _ => none
    else if c = 'n' then
      match r with
      | 'u' :: 'l' :: 'l' :: rest => some (Json.null, rest)
      | _ => none
    else parseNumber (c :: r)
  | f+1, .members acc l =>
    match l with
    | [] => none
    | c :: r =>
      if c = '"' then
        match parseStrBody r with
        | none => none
        | some (k, rest) =>
          match skipWs rest with
          | [] => none
          | d :: rest2 =>
            if d = ':' then
              match parseStep f (.val (skipWs rest2)) with
              | none => none
              | some (v, rest3) =>
                match skipWs rest3 with
                | [] => none
                | e :: rest4 =>
                  if e = ',' then parseStep f (.members (insertKV acc k v) (skipWs rest4))
                  else if e = rcb then some (Json.obj (insertKV acc k v), rest4)
                  else none
            else none
      else none
  | f+1, .elems acc l =>
    match parseStep f (.val l) with
    | none => none
    | some (v, rest) =>
      match skipWs rest with
      | [] => none
      | e :: rest2 =>
        if e = ',' then parseStep f (.elems (acc.snoc v) (skipWs rest2))
        else if e = ']' then some (Json.arr (acc.snoc v), rest2)
        else none

/-- json.loads: skip leading whitespace, scan one value, require only
whitespace to remain. -/
def jsonParse (s : List Char) : Option Json :=
  match parseStep (2 * s.length + 2) (ParseCall.val (skipWs s)) with
  | none => none
  | some (v, rest) => if skipWs rest = [] then some v else none

/- ===== extract_first_json (app.py lines 44-62) ===== -/

/-- The suffix after the first opening brace, if any. -/
def afterFirstBrace : List Char → Option (List Char)
  | [] => none
  | c :: r => if c = lcb then some r else afterFirstBrace r

/-- The prefix of a list up to and including its last closing brace. -/
def upToLastClose (l : List Char) : Option (List Char) :=
  let rl := l.reverse.dropWhile (fun c => !(c = rcb : Bool))
  if rl = [] then none else some rl.reverse

/-- The candidate substring the greedy regex captures: from the first
opening brace through the last closing brace after it. -/
def extractCandidate (text : List Char) : Option (List Char) :=
  match afterFirstBrace text with
  | none => none
  | some r => (upToLastClose r).map (fun p => lcb :: p)

/-- After a comma, try to consume optional whitespace followed by the given
closing character, returning what follows it. -/
def wsCloseTail (close : Char) : List Char → Option (List Char)
  | [] => none
  | c :: r =>
    if c = close then some r
    else if isPyWs c then wsCloseTail close r
    else none

/-- Fuelled scan replacing every comma-whitespace-close occurrence by the
bare closing character, left to right, resuming after the replacement, as
re.sub does.  Fuel equal to the length is always sufficient. -/
def subCloseGo (close : Char) : Nat → List Char → List Char
  | 0, l => l
  | _+1, [] => []
  | f+1, c :: r =>
    if c = ',' then
      match wsCloseTail close r with
      | some rest => close :: subCloseGo close f rest
      | none => ',' :: subCloseGo close f r
    else c :: subCloseGo close f r

/-- Strip any trailing comma before the given closing character. -/
def subClose (close : Char) (l : List Char) : List Char := subCloseGo close l.length l

/-- The repair pass: strip trailing commas before closing braces, then
before closing brackets, in that order. -/
def repair (c : List Char) : List Char := subClose ']' (subClose rcb c)

/-- The two parse failures: no candidate found, or the candidate (even after
repair) is not valid JSON. -/
inductive ParseFail where
  | noJson : ParseFail
  | decodeFail : ParseFail
deriving DecidableEq

/-- extract_first_json: find the candidate, parse it strictly, on failure
repair trailing commas and parse once more. -/
def extract_first_json (text : List Char) : Except ParseFail Json :=
  match extractCandidate text with
  | none => Except.error ParseFail.noJson
  | some c =>
    match jsonParse c with
    | some v => Except.ok v
    | none =>
      match jsonParse (repair c) with
      | some v => Except.ok v
      | none => Except.error ParseFail.decodeFail

/-- Whether some opening brace is later followed by a closing brace, which
is exactly when the greedy regex can match at all. -/
def hasBracePair : List Char → Bool
  | [] => false
  | c :: r => (decide (c = lcb) && r.contains rcb) || hasBracePair r

/- ===== Python coercions used by the normalizer ===== -/

/-- Truncation toward zero, what int() does to a float. -/
def ratTrunc (q : Rat) : Int :=
  if 0 ≤ q.num then (q.num.toNat / q.den : Nat) else -((q.num.natAbs / q.den : Nat))

/-- Strip Python whitespace from both ends. -/
def trimWs (s : List Char) : List Char :=
  ((s.dropWhile isPyWs).reverse.dropWhile isPyWs).reverse

/-- Digits with optional single underscores between digits, continuing an
integer literal whose first digit is already consumed. -/
def pyDigitsGo : Nat → List Char → Option Nat
  | acc, [] => some acc
  | acc, c :: r =>
    if c = '_' then
      match r with
      | d :: r2 => if d.isDigit then pyDigitsGo (10 * acc + charVal d) r2 else none
      | [] => none
    else if c.isDigit then pyDigitsGo (10 * acc + charVal c) r
    else none

/-- A nonempty run of digits with optional underscores, per int() rules. -/
def pyDigits : List Char → Option Nat
  | [] => none
  | c :: r => if c.isDigit then pyDigitsGo (charVal c) r else none

/-- int() applied to a string: strip whitespace, optional sign, digits with
underscores.  Unicode digits are outside the model. -/
def pyIntOfString (s : List Char) : Option Int :=
  match trimWs s with
  | '+' :: r => (pyDigits r).map (fun n => (n : Int))
  | '-' :: r => (pyDigits r).map (fun n => -(n : Int))
  | t => (pyDigits t).map (fun n => (n : Int))

/-- Split a list at the first character satisfying the test. -/
def splitFirst (p : Char → Bool) : List Char → Option (List Char × List Char)
  | [] => none
  | c :: r => if p c then some ([], r) else (splitFirst p r).map (fun q => (c :: q.1, q.2))

/-- Fractional part digits of a float literal, as an exact rational. -/
def pyFracVal (b : List Char) : Option Rat :=
  (pyDigits b).map (fun n => (n : Rat) / ((10 : Rat) ^ (b.filter Char.isDigit).length))

/-- Mantissa of a float literal: digits, digits dot digits, dot digits or
digits dot, with underscore rules applied per part. -/
def pyMantVal (m : List Char) : Option Rat :=
  match splitFirst (fun c => c = '.') m with
  | none => (pyDigits m).map (fun n => (n : Rat))
  | some (a, b) =>
    if a = [] then (if b = [] then none else pyFracVal b)
    else if b = [] then (pyDigits a).map (fun n => (n : Rat))
    else
      match pyDigits a, pyFracVal b with
      | some n, some q => some ((n : Rat) + q)
      | _, _ => none

/-- Signed exponent digits of a float literal. -/
def expPart (l : List Char) : Option Int :=
  match l with
  | '+' :: r => (pyDigits r).map (fun n => (n : Int))
  | '-' :: r => (pyDigits r).map (fun n => -(n : Int))
  | t => (pyDigits t).map (fun n => (n : Int))

/-- float() applied to a string, as an exact rational; the inf and nan
spellings are outside the model (see the model notes). -/
def pyFloatOfString (s : List Char) : Option Rat :=
  let t := trimWs s
  let st : Rat × List Char :=
    match t with
    | '+' :: r => (1, r)
    | '-' :: r => (-1, r)
    | _ => (1, t)
  match splitFirst (fun c => c = 'e' || c = 'E') st.2 with
  | none => (pyMantVal st.2).map (fun q => st.1 * q)
  | some (m, ex) =>
    match pyMantVal m, expPart ex with
    | some q, some e => some (st.1 * q * (10 : Rat) ^ e)
    | _, _ => none

/-- int() on a parsed JSON value: identity on ints, truncation on floats,
0 or 1 on bools, literal parsing on strings, a TypeError otherwise. -/
def pyInt : Json → Option Int
  | .num n => some n
  | .fnum q => some (ratTrunc q)
  | .bool b => some (if b then 1 else 0)
  | .str s => pyIntOfString s
  | _ => none

/-- float() on a parsed JSON value. -/
def pyFloat : Json → Option Rat
  | .num n => some (n : Rat)
  | .fnum q => some q
  | .bool b => some (if b then 1 else 0)
  | .str s => pyFloatOfString s
  | _ => none

/-- Python truthiness of a parsed JSON value. -/
def pyBool : Json → Bool
  | .null => false
  | .bool b => b
  | .num n => decide (n ≠ 0)
  | .fnum q => decide (q ≠ 0)
  | .str s => decide (s ≠ [])
  | .arr .nil => false
  | .arr (.cons _ _) => true
  | .obj .nil => false
  | .obj (.cons _ _ _) => true

/-- isinstance(x, str). -/
def isStrB : Json → Bool
  | .str _ => true
  | _ => false

/-- isinstance(x, list). -/
def isArrB : Json → Bool
  | .arr _ => true
  | _ => false

/-- isinstance(x, dict). -/
def isDictB : Json → Bool
  | .obj _ => true
  | _ => false

/-- str.lower, ASCII part (the valid departure types are ASCII). -/
def lowerStr (s : List Char) : List Char := s.map Char.toLower

/- ===== the normalizer (app.py lines 143-197) ===== -/

/-- Python dict get with default None: a missing key and a key stored with
JSON null are indistinguishable, both give None. -/
def pyGet (m : JsonMembers) (k : List Char) : Option Json :=
  match getKV m k with
  | none => none
  | some Json.null => none
  | some j => some j

/-- The normalized record the endpoint returns, mirroring class CrowdResult.
crowd_label and rationale are passed through without coercion, so they keep
the raw parsed value; the pydantic validation at construction (modelled in
normalizeParsed) guarantees that on success they are None or strings. -/
structure CrowdResult where
  people_count : Option Int
  crowd_score : Option Int
  crowd_label : Option Json
  confidence : Option Rat
  rationale : Json
  screen_detected : Option Bool
  departure_type : Option (List Char)
  departure_info : JsonList

def kPeopleCount : List Char := "people_count".data
def kCrowdScore : List Char := "crowd_score".data
def kCrowdLabel : List Char := "crowd_label".data
def kConfidence : List Char := "confidence".data
def kRationale : List Char := "rationale".data
def kScreenDetected : List Char := "screen_detected".data
def kDepartureType : List Char := "departure_type".data
def kDepartureInfo : List Char := "departure_info".data

/-- people_count: absent stays absent, a present value is coerced by int()
and a coercion failure fails the whole normalization. -/
def normPC (kvs : JsonMembers) : Option (Option Int) :=
  match pyGet kvs kPeopleCount with
  | none => some none
  | some j => (pyInt j).map some

/-- crowd_score: as people_count, then clamped into 1..10. -/
def normCS (kvs : JsonMembers) : Option (Option Int) :=
  match pyGet kvs kCrowdScore with
  | none => some none
  | some j => (pyInt j).map (fun n => some (max 1 (min 10 n)))

/-- confidence: absent stays absent, else coerced by float(). -/
def normConf (kvs : JsonMembers) : Option (Option Rat) :=
  match pyGet kvs kConfidence with
  | none => some none
  | some j => (pyFloat j).map some

/-- screen_detected: absent stays absent, else coerced by bool(), which
never fails. -/
def normSD (kvs : JsonMembers) : Option Bool :=
  (pyGet kvs kScreenDetected).map pyBool

def validTypes : List (List Char) :=
  ["flight".data, "train".data, "bus".data, "subway".data, "ferry".data, "none".data]

def noneWord : List Char := "none".data

/-- The else branch of the departure_type conditional: the word none when
the coerced screen_detected is falsy, unset when it is True. -/
def dtFallback (kvs : JsonMembers) : Option (List Char) :=
  if normSD kvs = some true then none else some noneWord

/-- departure_type: a truthy string is lower-cased and forced into the
closed set; everything else takes the fallback branch. -/
def normDT (kvs : JsonMembers) : Option (List Char) :=
  match pyGet kvs kDepartureType with
  | some (Json.str s) =>
    if s = [] then dtFallback kvs
    else
      some (if lowerStr s ∈ validTypes then lowerStr s else noneWord)
  | some _ => dtFallback kvs
  | none => dtFallback kvs

/-- The list comprehension keeping only dict entries. -/
def filterDicts : JsonList → JsonList
  | .nil => .nil
  | .cons x tl => if isDictB x then .cons x (filterDicts tl) else filterDicts tl

/-- departure_info: absent or not a list gives the empty list, else only the
dict entries are retained, in order. -/
def normDI (kvs : JsonMembers) : JsonList :=
  match pyGet kvs kDepartureInfo with
  | some (Json.arr xs) => filterDicts xs
  | _ => .nil

/-- rationale: dict get with default empty string, so only a missing key
takes the default; an explicit null is kept as None. -/
def normRationale (kvs : JsonMembers) : Json :=
  match getKV kvs kRationale with
  | none => Json.str []
  | some j => j

/-- A value acceptable to a pydantic Optional str field (pydantic v2, the
version current FastAPI and the google genai SDK install): None and strings
validate, every other shape (numbers, booleans, lists, dicts) raises a
ValidationError at the CrowdResult construction of app.py lines 185-194,
caught by the same except handler as any other normalization failure. -/
def strFieldOk : Json → Bool
  | Json.null => true
  | Json.str _ => true
  | _ => false

/-- Validation of the raw crowd_label value at record construction. -/
def crowdLabelOk (kvs : JsonMembers) : Bool :=
  match pyGet kvs kCrowdLabel with
  | none => true
  | some j => strFieldOk j

/-- Validation of the rationale value at record construction (the default
empty string and an explicit null both validate). -/
def rationaleOk (kvs : JsonMembers) : Bool :=
  strFieldOk (normRationale kvs)

/-- The whole try block of step 5: the three fallible coercions happen in
order, then the CrowdResult construction validates every field against its
declared pydantic type; any raise is caught as one normalization error.
Of the constructed values only crowd_label and rationale can be invalid:
people_count and crowd_score are Optional ints after int(), confidence is an
Optional float after float(), screen_detected an Optional bool, the
departure_type either unset or one of the closed-set strings, and
departure_info a list of string-keyed dicts, all of which always validate.
Reaching the constructor with every check successful is observationally the
same as the sequential Python code, since every failure path raises into the
same except clause. -/
def normalizeParsed (kvs : JsonMembers) : Option CrowdResult :=
  match normPC kvs, normCS kvs, normConf kvs with
  | some pc, some cs, some conf =>
    if crowdLabelOk kvs && rationaleOk kvs then
      some {
        people_count := pc
        crowd_score := cs
        crowd_label := pyGet kvs kCrowdLabel
        confidence := conf
        rationale := normRationale kvs
        screen_detected := normSD kvs
        departure_type := normDT kvs
        departure_info := normDI kvs }
    else none
  | _, _, _ => none

/- ===== the HTTP handler (app.py lines 98-199) ===== -/

/-- An HTTPException: status code and detail message. -/
structure HttpError where
  status : Nat
  detail : String
deriving DecidableEq

/-- The pipeline after validation and the model call, given the raw model
text: extraction failure surfaces as 502, a normalization failure as 500.
A parsed non-dict would raise at the first attribute access and be caught by
the same normalization handler, hence the same 500 (extraction in fact only
ever yields objects). -/
def postValidate (raw_text : List Char) : Except HttpError CrowdResult :=
  match extract_first_json raw_text with
  | Except.error _ => Except.error ⟨502, "Model returned unexpected output format"⟩
  | Except.ok (Json.obj kvs) =>
    match normalizeParsed kvs with
    | some r => Except.ok r
    | none => Except.error ⟨500, "Failed to normalize model response"⟩
  | Except.ok _ => Except.error ⟨500, "Failed to normalize model response"⟩

def MAX_UPLOAD_BYTES : Nat := 5 * 1024 * 1024

/-- analyze_image as a function of the uploaded bytes, the declared content
type (read only to build the image part, never validated) and the raw text
the vision model returned: empty body is a 400, oversize body a 413,
everything else proceeds to the post-model pipeline. -/
def analyze_image (contents : List Nat) (_content_type : Option (List Char))
    (raw_text : List Char) : Except HttpError CrowdResult :=
  if contents.length = 0 then Except.error ⟨400, "Empty file"⟩
  else if MAX_UPLOAD_BYTES < contents.length then
    Except.error ⟨413, "File too large. Max 5242880 bytes allowed."⟩
  else postValidate raw_text

/- ===== helper lemmas about the normalizer ===== -/

theorem normalizeParsed_some {kvs : JsonMembers} {r : CrowdResult}
    (h : normalizeParsed kvs = some r) :
    normPC kvs = some r.people_count ∧ normCS kvs = some r.crowd_score ∧
    normConf kvs = some r.confidence ∧ r.crowd_label = pyGet kvs kCrowdLabel ∧
    r.rationale = normRationale kvs ∧ r.screen_detected = normSD kvs ∧
    r.departure_type = normDT kvs ∧ r.departure_info = normDI kvs := by
  unfold normalizeParsed at h
  cases hpc : normPC kvs with
  | none => rw [hpc] at h; exact absurd h (by simp)
  | some pc =>
    cases hcs : normCS kvs with
    | none => rw [hpc, hcs] at h; exact absurd h (by simp)
    | some cs =>
      cases hconf : normConf kvs with
      | none => rw [hpc, hcs, hconf] at h; exact absurd h (by simp)
      | some conf =>
        rw [hpc, hcs, hconf] at h
        replace h :
            (if crowdLabelOk kvs && rationaleOk kvs then
              some (CrowdResult.mk pc cs (pyGet kvs kCrowdLabel) conf
                (normRationale kvs) (normSD kvs) (normDT kvs) (normDI kvs))
            else (none : Option CrowdResult)) = some r := h
        by_cases hok : (crowdLabelOk kvs && rationaleOk kvs) = true
        · rw [if_pos hok] at h
          simp only [Option.some.injEq] at h
          subst h
          exact ⟨rfl, rfl, rfl, rfl, rfl, rfl, rfl, rfl⟩
        · rw [if_neg hok] at h
          exact absurd h (by simp)

theorem filterDicts_toList : ∀ xs : JsonList,
    (filterDicts xs).toList = xs.toList.filter isDictB
  | .nil => rfl
  | .cons x tl => by
    by_cases hx : isDictB x = true
    · simp [filterDicts, hx, JsonList.toList, List.filter, filterDicts_toList tl]
    · simp only [Bool.not_eq_true] at hx
      simp [filterDicts, hx, JsonList.toList, List.filter, filterDicts_toList tl]

theorem dtFallback_eq (kvs : JsonMembers) :
    dtFallback kvs = if normSD kvs = some true then none else some noneWord := rfl

/- ===== C1: crowd_score is clamped into 1..10 ===== -/

/-- C1: whenever the normalized output carries a crowd_score it lies in the
inclusive range 1..10, and an integer input is exactly clamped: above 10
becomes 10, below 1 becomes 1, in-range values pass through unchanged
(the conclusion gives the exact max-min form of app.py line 153). -/
theorem crowd_score_clamped (kvs : JsonMembers) (r : CrowdResult)
    (h : normalizeParsed kvs = some r) :
    (∀ c : Int, r.crowd_score = some c → 1 ≤ c ∧ c ≤ 10) ∧
    (∀ n : Int, pyGet kvs kCrowdScore = some (Json.num n) →
      r.crowd_score = some (max 1 (min 10 n))) := by
  have hcs := (normalizeParsed_some h).2.1
  constructor
  · intro c hc
    cases hg : pyGet kvs kCrowdScore with
    | none =>
      have hval : normCS kvs = some none := by simp [normCS, hg]
      rw [hval] at hcs
      simp only [Option.some.injEq] at hcs
      rw [← hcs] at hc
      exact absurd hc (by simp)
    | some j =>
      cases hji : pyInt j with
      | none =>
        have hval : normCS kvs = none := by simp [normCS, hg, hji]
        rw [hval] at hcs
        exact absurd hcs (by simp)
      | some n =>
        have hval : normCS kvs = some (some (max 1 (min 10 n))) := by
          simp [normCS, hg, hji]
        rw [hval] at hcs
        simp only [Option.some.injEq] at hcs
        rw [← hcs] at hc
        simp only [Option.some.injEq] at hc
        refine ⟨?_, ?_⟩
        · rw [← hc]; exact le_max_left _ _
        · rw [← hc]; exact max_le (by norm_num) (min_le_left _ _)
  · intro n hg
    have hval : normCS kvs = some (some (max 1 (min 10 n))) := by
      simp [normCS, hg, pyInt]
    rw [hval] at hcs
    simp only [Option.some.injEq] at hcs
    exact hcs.symm

def c1kvs : JsonMembers := .cons kCrowdScore (Json.num 15) .nil

def c1res : CrowdResult :=
  { people_count := none, crowd_score := some 10, crowd_label := none,
    confidence := none, rationale := Json.str [], screen_detected := none,
    departure_type := some noneWord, departure_info := .nil }

/-- C1 witness: the out-of-range input 15 normalizes, and the theorem applies
to it, clamping to 10. -/
theorem crowd_score_clamped_witness :
    normalizeParsed c1kvs = some c1res ∧
    ((∀ c : Int, c1res.crowd_score = some c → 1 ≤ c ∧ c ≤ 10) ∧
     (∀ n : Int, pyGet c1kvs kCrowdScore = some (Json.num n) →
       c1res.crowd_score = some (max 1 (min 10 n)))) :=
  ⟨rfl, crowd_score_clamped c1kvs c1res rfl⟩

/- ===== C2: departure_type output is in the closed set or unset ===== -/

/-- C2: any departure_type present in the normalized output is a member of
the closed set of valid types; the only other possibility is that the field
is unset. -/
theorem departure_type_in_closed_set (kvs : JsonMembers) (r : CrowdResult)
    (h : normalizeParsed kvs = some r) :
    ∀ s, r.departure_type = some s → s ∈ validTypes := by
  have hd := (normalizeParsed_some h).2.2.2.2.2.2.1
  intro s hs
  rw [hd] at hs
  have hfb : ∀ t, dtFallback kvs = some t → t ∈ validTypes := by
    intro t ht
    rw [dtFallback_eq] at ht
    by_cases hsd : normSD kvs = some true
    · rw [if_pos hsd] at ht; exact absurd ht (by simp)
    · rw [if_neg hsd] at ht
      simp only [Option.some.injEq] at ht
      rw [← ht]
      decide
  cases hg : pyGet kvs kDepartureType with
  | none =>
    have hval : normDT kvs = dtFallback kvs := by simp [normDT, hg]
    rw [hval] at hs
    exact hfb s hs
  | some j =>
    cases j with
    | str s' =>
      by_cases he : s' = []
      · have hval : normDT kvs = dtFallback kvs := by simp [normDT, hg, he]
        rw [hval] at hs
        exact hfb s hs
      · have hval : normDT kvs =
            some (if lowerStr s' ∈ validTypes then lowerStr s' else noneWord) := by
          simp [normDT, hg, he]
        rw [hval] at hs
        simp only [Option.some.injEq] at hs
        rw [← hs]
        by_cases hv : lowerStr s' ∈ validTypes
        · rwa [if_pos hv]
        · rw [if_neg hv]; decide
    | null =>
      have hval : normDT kvs = dtFallback kvs := by simp [normDT, hg]
      rw [hval] at hs; exact hfb s hs
    | bool b =>
      have hval : normDT kvs = dtFallback kvs := by simp [normDT, hg]
      rw [hval] at hs; exact hfb s hs
    | num n =>
      have hval : normDT kvs = dtFallback kvs := by simp [normDT, hg]
      rw [hval] at hs; exact hfb s hs
    | fnum q =>
      have hval : normDT kvs = dtFallback kvs := by simp [normDT, hg]
      rw [hval] at hs; exact hfb s hs
    | arr xs =>
      have hval : normDT kvs = dtFallback kvs := by simp [normDT, hg]
      rw [hval] at hs; exact hfb s hs
    | obj m =>
      have hval : normDT kvs = dtFallback kvs := by simp [normDT, hg]
      rw [hval] at hs; exact hfb s hs

def c2kvs : JsonMembers := .cons kDepartureType (Json.str "airplane".data) .nil

def c2res : CrowdResult :=
  { people_count := none, crowd_score := none, crowd_label := none,
    confidence := none, rationale := Json.str [], screen_detected := none,
    departure_type := some noneWord, departure_info := .nil }

/-- C2 witness: the invalid string airplane normalizes and the output value
is in the closed set. -/
theorem departure_type_in_closed_set_witness :
    normalizeParsed c2kvs = some c2res ∧
    (∀ s, c2res.departure_type = some s → s ∈ validTypes) :=
  ⟨rfl, departure_type_in_closed_set c2kvs c2res rfl⟩

/- ===== C4: case variants of a valid type keep the valid type ===== -/

def c4kvs : JsonMembers := .cons kDepartureType (Json.str "Train".data) .nil

/-- C4 counterexample: the model string Train is lower-cased to train, which
is in the closed set, so the output is train and not none — the claim that a
case variant normalizes to none is false. -/
theorem departure_type_case_counterexample :
    Option.map CrowdResult.departure_type (normalizeParsed c4kvs) =
      some (some ("train".data)) ∧ "train".data ≠ "none".data :=
  ⟨rfl, by decide⟩

/-- C4 amended: a present, truthy string departure_type is lower-cased; the
result is kept when it lands in the closed set (so a pure case variant such
as Train becomes the valid lower-case member train) and is forced to none
only otherwise (typos such as airplane). -/
theorem departure_type_string_normalizes (kvs : JsonMembers) (r : CrowdResult)
    (s : List Char) (h : normalizeParsed kvs = some r)
    (hdt : pyGet kvs kDepartureType = some (Json.str s)) (hne : s ≠ []) :
    r.departure_type =
      some (if lowerStr s ∈ validTypes then lowerStr s else noneWord) := by
  have hd := (normalizeParsed_some h).2.2.2.2.2.2.1
  rw [hd]
  simp [normDT, hdt, hne]

def c4res : CrowdResult :=
  { people_count := none, crowd_score := none, crowd_label := none,
    confidence := none, rationale := Json.str [], screen_detected := none,
    departure_type := some ("train".data), departure_info := .nil }

/-- C4 witness: the amended theorem applied to the input Train. -/
theorem departure_type_string_normalizes_witness :
    normalizeParsed c4kvs = some c4res ∧
    pyGet c4kvs kDepartureType = some (Json.str "Train".data) ∧
    "Train".data ≠ ([] : List Char) ∧
    c4res.departure_type =
      some (if lowerStr "Train".data ∈ validTypes then lowerStr "Train".data
            else noneWord) :=
  ⟨rfl, rfl, by decide,
    departure_type_string_normalizes c4kvs c4res "Train".data rfl rfl (by decide)⟩

/- ===== C8: departure_info normalization is total and filters dicts ===== -/

def c8list : JsonList :=
  .cons (Json.str "x".data) (.cons (Json.obj .nil) (.cons (Json.num 3) .nil))

/-- C8: the departure_info step never fails: an absent field or a non-list
value yields the empty list, a list keeps exactly its dict entries in order,
and whether normalization as a whole succeeds depends only on the three
fallible coercions (people_count, crowd_score, confidence) and the pydantic
validation of the two pass-through string fields (crowd_label, rationale),
never on the shape of departure_info; a successful run carries exactly the
filtered list. -/
theorem departure_info_never_fails (kvs : JsonMembers) :
    (pyGet kvs kDepartureInfo = none → normDI kvs = JsonList.nil) ∧
    (∀ j, pyGet kvs kDepartureInfo = some j → isArrB j = false →
      normDI kvs = JsonList.nil) ∧
    (∀ xs, pyGet kvs kDepartureInfo = some (Json.arr xs) →
      (normDI kvs).toList = xs.toList.filter isDictB) ∧
    ((normalizeParsed kvs).isSome =
      ((normPC kvs).isSome && (normCS kvs).isSome && (normConf kvs).isSome &&
        crowdLabelOk kvs && rationaleOk kvs)) ∧
    (∀ r, normalizeParsed kvs = some r → r.departure_info = normDI kvs) := by
  refine ⟨?_, ?_, ?_, ?_, ?_⟩
  · intro hg; unfold normDI; rw [hg]
  · intro j hg hna
    unfold normDI
    rw [hg]
    cases j with
    | arr xs => exact absurd hna (by simp [isArrB])
    | null => rfl
    | bool b => rfl
    | num n => rfl
    | fnum q => rfl
    | str s => rfl
    | obj m => rfl
  · intro xs hg
    unfold normDI
    rw [hg]
    exact filterDicts_toList xs
  · cases hpc : normPC kvs with
    | none => simp [normalizeParsed, hpc]
    | some pc =>
      cases hcs : normCS kvs with
      | none => simp [normalizeParsed, hpc, hcs]
      | some cs =>
        cases hconf : normConf kvs with
        | none => simp [normalizeParsed, hpc, hcs, hconf]
        | some conf =>
          by_cases hok : (crowdLabelOk kvs && rationaleOk kvs) = true
          · simp [normalizeParsed, hpc, hcs, hconf, hok]
          · simp [normalizeParsed, hpc, hcs, hconf, hok]
  · intro r hr
    exact (normalizeParsed_some hr).2.2.2.2.2.2.2

/-- C8 witness: a list mixing a string, a dict and a number keeps exactly
the dict entry. -/
theorem departure_info_never_fails_witness :
    pyGet (JsonMembers.cons kDepartureInfo (Json.arr c8list) .nil) kDepartureInfo =
      some (Json.arr c8list) ∧
    (normDI (JsonMembers.cons kDepartureInfo (Json.arr c8list) .nil)).toList =
      c8list.toList.filter isDictB :=
  ⟨rfl, (departure_info_never_fails
    (JsonMembers.cons kDepartureInfo (Json.arr c8list) .nil)).2.2.1 c8list rfl⟩

/- ===== C9: people_count is passed through by int, not clamped at 0 ===== -/

def c9kvs : JsonMembers := .cons kPeopleCount (Json.num (-5)) .nil

/-- C9 counterexample: the integer input -5 is kept as -5 in the output, so
the output is not always at least 0. -/
theorem people_count_negative_counterexample :
    Option.map CrowdResult.people_count (normalizeParsed c9kvs) =
      some (some (-5)) ∧ ¬ (0 ≤ (-5 : Int)) :=
  ⟨rfl, by decide⟩

/-- C9 amended: whenever people_count is present in the normalized output it
is exactly the int coercion of the input value (an integer, not necessarily
nonnegative), and an absent field stays absent (unknown, not zero). -/
theorem people_count_passthrough (kvs : JsonMembers) (r : CrowdResult)
    (h : normalizeParsed kvs = some r) :
    (pyGet kvs kPeopleCount = none → r.people_count = none) ∧
    (∀ j, pyGet kvs kPeopleCount = some j → r.people_count = pyInt j) := by
  have hpc := (normalizeParsed_some h).1
  constructor
  · intro hg
    have hval : normPC kvs = some none := by simp [normPC, hg]
    rw [hval] at hpc
    simp only [Option.some.injEq] at hpc
    exact hpc.symm
  · intro j hg
    cases hji : pyInt j with
    | none =>
      have hval : normPC kvs = none := by simp [normPC, hg, hji]
      rw [hval] at hpc
      exact absurd hpc (by simp)
    | some n =>
      have hval : normPC kvs = some (some n) := by simp [normPC, hg, hji]
      rw [hval] at hpc
      simp only [Option.some.injEq] at hpc
      exact hpc.symm

def c9res : CrowdResult :=
  { people_count := some (-5), crowd_score := none, crowd_label := none,
    confidence := none, rationale := Json.str [], screen_detected := none,
    departure_type := some noneWord, departure_info := .nil }

/-- C9 witness: the amended theorem applied to the input -5. -/
theorem people_count_passthrough_witness :
    normalizeParsed c9kvs = some c9res ∧
    pyGet c9kvs kPeopleCount = some (Json.num (-5)) ∧
    c9res.people_count = pyInt (Json.num (-5)) :=
  ⟨rfl, rfl,
    (people_count_passthrough c9kvs c9res rfl).2 (Json.num (-5)) rfl⟩

/- ===== C10: a falsy or non-string departure_type acts like absence ===== -/

/-- C10: when departure_type is absent, or present but falsy or not a
string (empty string, number, null, list, dict), the output departure_type
is exactly the fallback: the word none when the coerced screen_detected is
falsy, unset when it is True. -/
theorem departure_type_nonstring_like_absent (kvs : JsonMembers) (r : CrowdResult)
    (h : normalizeParsed kvs = some r)
    (hdt : pyGet kvs kDepartureType = none ∨
      ∃ j, pyGet kvs kDepartureType = some j ∧
        (pyBool j = false ∨ isStrB j = false)) :
    r.departure_type = if normSD kvs = some true then none else some noneWord := by
  have hd := (normalizeParsed_some h).2.2.2.2.2.2.1
  rw [hd, ← dtFallback_eq]
  rcases hdt with hnone | ⟨j, hj, hcond⟩
  · simp [normDT, hnone]
  · cases j with
    | str s =>
      rcases hcond with hb | hb
      · have he : s = [] := by
          simpa [pyBool] using hb
        simp [normDT, hj, he]
      · exact absurd hb (by simp [isStrB])
    | null => simp [normDT, hj]
    | bool b => simp [normDT, hj]
    | num n => simp [normDT, hj]
    | fnum q => simp [normDT, hj]
    | arr xs => simp [normDT, hj]
    | obj m => simp [normDT, hj]

def c10kvs : JsonMembers :=
  .cons kDepartureType (Json.num 5) (.cons kScreenDetected (Json.bool true) .nil)

def c10res : CrowdResult :=
  { people_count := none, crowd_score := none, crowd_label := none,
    confidence := none, rationale := Json.str [], screen_detected := some true,
    departure_type := none, departure_info := .nil }

/-- C10 witness: a numeric departure_type with a true screen_detected leaves
the output departure_type unset. -/
theorem departure_type_nonstring_like_absent_witness :
    normalizeParsed c10kvs = some c10res ∧
    pyGet c10kvs kDepartureType = some (Json.num 5) ∧
    isStrB (Json.num 5) = false ∧
    c10res.departure_type =
      (if normSD c10kvs = some true then none else some noneWord) :=
  ⟨rfl, rfl, rfl,
    departure_type_nonstring_like_absent c10kvs c10res rfl
      (Or.inr ⟨Json.num 5, rfl, Or.inr rfl⟩)⟩

/- ===== C3: upload validation ===== -/

/-- C3: empty content is rejected as 400 Empty file for any declared content
type, content longer than 5 MiB by even one byte is rejected as 413, and all
other content is accepted and handed to the rest of the pipeline; no other
validation exists. -/
theorem upload_validation (contents : List Nat) (ct : Option (List Char))
    (raw : List Char) :
    (contents = [] →
      analyze_image contents ct raw = Except.error ⟨400, "Empty file"⟩) ∧
    (MAX_UPLOAD_BYTES < contents.length →
      analyze_image contents ct raw =
        Except.error ⟨413, "File too large. Max 5242880 bytes allowed."⟩) ∧
    (contents ≠ [] → contents.length ≤ MAX_UPLOAD_BYTES →
      analyze_image contents ct raw = postValidate raw) := by
  refine ⟨?_, ?_, ?_⟩
  · intro h; subst h; rfl
  · intro h
    have hne : ¬ contents.length = 0 := by
      unfold MAX_UPLOAD_BYTES at h; omega
    simp [analyze_image, hne, h]
  · intro h1 h2
    have hne : ¬ contents.length = 0 := by
      simpa [List.length_eq_zero] using h1
    have hlt : ¬ MAX_UPLOAD_BYTES < contents.length := by omega
    simp [analyze_image, hne, hlt]

/-- C3 witness: a one-byte upload is within bounds and is forwarded. -/
theorem upload_validation_witness :
    ([5] : List Nat) ≠ [] ∧ ([5] : List Nat).length ≤ MAX_UPLOAD_BYTES ∧
    analyze_image [5] none ("x".data) = postValidate ("x".data) :=
  ⟨by decide, by decide,
    (upload_validation [5] none ("x".data)).2.2 (by decide) (by decide)⟩

/- ===== C6: no brace pair means ParseError, surfaced as 502 ===== -/

/-- Occurrence of a character in a list, by direct recursion. -/
def hasChar (a : Char) : List Char → Bool
  | [] => false
  | c :: r => if c = a then true else hasChar a r

theorem hasChar_false_not_mem : ∀ {a : Char} {l : List Char},
    hasChar a l = false → ∀ x ∈ l, x ≠ a
  | _, [], _, x, hx => absurd hx (by simp)
  | a, c :: r, h, x, hx => by
    by_cases hc : c = a
    · rw [hasChar, if_pos hc] at h; exact absurd h (by simp)
    · rw [hasChar, if_neg hc] at h
      rcases List.mem_cons.mp hx with hxc | hxr
      · rw [hxc]; exact hc
      · exact hasChar_false_not_mem h x hxr

theorem upToLastClose_none {l : List Char} (h : hasChar rcb l = false) :
    upToLastClose l = none := by
  unfold upToLastClose
  have hd : l.reverse.dropWhile (fun c => !(c = rcb : Bool)) = [] := by
    apply List.dropWhile_eq_nil_iff.mpr
    intro x hx
    have hxl : x ∈ l := List.mem_reverse.mp hx
    simp [hasChar_false_not_mem h x hxl]
  simp [hd]

theorem extractCandidate_cons {c : Char} {r : List Char} (hc : c ≠ lcb) :
    extractCandidate (c :: r) = extractCandidate r := by
  simp [extractCandidate, afterFirstBrace, hc]

theorem extractCandidate_none : ∀ text : List Char,
    hasBracePair text = false → extractCandidate text = none
  | [], _ => rfl
  | c :: r, h => by
    rw [hasBracePair] at h
    simp only [Bool.or_eq_false_iff, Bool.and_eq_false_iff] at h
    by_cases hc : c = lcb
    · have hcc : hasChar rcb r = false := by
        rcases h.1 with hd | hcc
        · exact absurd hd (by simp [hc])
        · -- the embedded contains is definitionally hasChar on this shape
          revert hcc
          have : ∀ rr : List Char, rr.contains rcb = false → hasChar rcb rr = false := by
            intro rr
            induction rr with
            | nil => intro _; rfl
            | cons a t ih =>
              intro hz
              simp only [List.contains_cons, Bool.or_eq_false_iff] at hz
              rw [hasChar]
              by_cases ha : a = rcb
              · exfalso
                have := hz.1
                rw [ha] at this
                simp at this
              · rw [if_neg ha]; exact ih hz.2
          exact this r
      subst hc
      simp [extractCandidate, afterFirstBrace, upToLastClose_none hcc]
    · rw [extractCandidate_cons hc]
      exact extractCandidate_none r h.2

theorem hasBracePair_false_of_not_mem : ∀ text : List Char,
    lcb ∉ text → hasBracePair text = false
  | [], _ => rfl
  | c :: r, h => by
    have hc : c ≠ lcb := by
      intro hcc; exact h (by rw [hcc]; exact List.mem_cons_self _ _)
    have hr : lcb ∉ r := fun hm => h (List.mem_cons_of_mem _ hm)
    rw [hasBracePair]
    simp [hc, hasBracePair_false_of_not_mem r hr]

/-- C6: when no opening brace is later followed by a closing brace (in
particular when the text has no opening brace at all), the greedy candidate
search fails, extraction reports that no JSON object was found, and the
endpoint surfaces this as a 502. -/
theorem no_json_object_found (text : List Char) :
    (lcb ∉ text → hasBracePair text = false) ∧
    (hasBracePair text = false →
      extract_first_json text = Except.error ParseFail.noJson ∧
      postValidate text =
        Except.error ⟨502, "Model returned unexpected output format"⟩) := by
  refine ⟨hasBracePair_false_of_not_mem text, ?_⟩
  intro h
  have h1 : extract_first_json text = Except.error ParseFail.noJson := by
    unfold extract_first_json
    rw [extractCandidate_none text h]
  refine ⟨h1, ?_⟩
  unfold postValidate
  rw [h1]

/-- C6 witness: plain prose with no braces is a ParseError and a 502. -/
theorem no_json_object_found_witness :
    hasBracePair ("hello world".data) = false ∧
    extract_first_json ("hello world".data) = Except.error ParseFail.noJson ∧
    postValidate ("hello world".data) =
      Except.error ⟨502, "Model returned unexpected output format"⟩ :=
  ⟨rfl, ((no_json_object_found ("hello world".data)).2 rfl).1,
    ((no_json_object_found ("hello world".data)).2 rfl).2⟩

/- ===== C5: trailing-comma repair ===== -/

def ex5text : List Char := ("\x7b\"people_count\": 3, \"crowd_score\": 2,\x7d").data

def ex5clean : List Char := ("\x7b\"people_count\": 3, \"crowd_score\": 2\x7d").data

/-- C5: whenever the extracted candidate fails strict parsing, the result of
extraction is exactly the result of parsing the comma-stripped repair of the
candidate; on the concrete trailing-comma input the strict parse fails, the
repair deletes the trailing comma, and extraction succeeds with
people_count 3 and crowd_score 2. -/
theorem trailing_comma_repair :
    (∀ text c, extractCandidate text = some c → jsonParse c = none →
      extract_first_json text = (match jsonParse (repair c) with
        | some v => Except.ok v
        | none => Except.error ParseFail.decodeFail)) ∧
    extractCandidate ex5text = some ex5text ∧
    jsonParse ex5text = none ∧
    repair ex5text = ex5clean ∧
    extract_first_json ex5text =
      Except.ok (Json.obj (.cons kPeopleCount (Json.num 3)
        (.cons kCrowdScore (Json.num 2) .nil))) := by
  refine ⟨?_, rfl, rfl, rfl, rfl⟩
  intro text c hc hp
  simp only [extract_first_json, hc, hp]

/-- C5 witness: the repair branch applied to the concrete trailing-comma
response text. -/
theorem trailing_comma_repair_witness :
    extractCandidate ex5text = some ex5text ∧
    jsonParse ex5text = none ∧
    extract_first_json ex5text = (match jsonParse (repair ex5text) with
      | some v => Except.ok v
      | none => Except.error ParseFail.decodeFail) :=
  ⟨rfl, rfl, trailing_comma_repair.1 ex5text ex5text rfl rfl⟩

/- ===== C7 machinery: well-formedness of parsed values ===== -/

/-- Keys of a member sequence are pairwise distinct (the invariant of every
object json.loads builds, since dict assignment collapses duplicates). -/
def distinctKeys : JsonMembers → Bool
  | .nil => true
  | .cons k _ tl => !(hasKey tl k) && distinctKeys tl

mutual
def wfJ : Json → Bool
  | .null => true
  | .bool _ => true
  | .num _ => true
  | .fnum _ => false
  | .str _ => true
  | .arr xs => wfL xs
  | .obj m => distinctKeys m && wfM m
def wfL : JsonList → Bool
  | .nil => true
  | .cons x tl => wfJ x && wfL tl
def wfM : JsonMembers → Bool
  | .nil => true
  | .cons _ v tl => wfJ v && wfM tl
end

/- recursion depth the scanner needs for a value, and its two companions -/

mutual
def fuelVal : Json → Nat
  | .null => 1
  | .bool _ => 1
  | .num _ => 1
  | .fnum _ => 1
  | .str _ => 1
  | .arr xs => 1 + fuelElems xs
  | .obj m => 1 + fuelMembers m
def fuelElems : JsonList → Nat
  | .nil => 0
  | .cons x tl => 1 + max (fuelVal x) (fuelElems tl)
def fuelMembers : JsonMembers → Nat
  | .nil => 0
  | .cons _ v tl => 1 + max (fuelVal v) (fuelMembers tl)
end

theorem fuelVal_pos : ∀ v : Json, 1 ≤ fuelVal v
  | .null => le_refl 1
  | .bool _ => le_refl 1
  | .num _ => le_refl 1
  | .fnum _ => le_refl 1
  | .str _ => le_refl 1
  | .arr _ => by rw [fuelVal]; omega
  | .obj _ => by rw [fuelVal]; omega

theorem fuelElems_pos {xs : JsonList} (h : xs ≠ .nil) : 1 ≤ fuelElems xs := by
  cases xs with
  | nil => exact absurd rfl h
  | cons x tl => rw [fuelElems]; omega

theorem fuelMembers_pos {m : JsonMembers} (h : m ≠ .nil) : 1 ≤ fuelMembers m := by
  cases m with
  | nil => exact absurd rfl h
  | cons k v tl => rw [fuelMembers]; omega

/- ===== C7 machinery: sequence algebra ===== -/

theorem jsonList_nil_append (ys : JsonList) : JsonList.nil.append ys = ys := rfl

theorem jsonList_append_assoc : ∀ a b c : JsonList,
    (a.append b).append c = a.append (b.append c)
  | .nil, _, _ => rfl
  | .cons x tl, b, c => by
    rw [JsonList.append, JsonList.append, JsonList.append,
      jsonList_append_assoc tl b c]

theorem JsonList.snoc_eq_append : ∀ (acc : JsonList) (x : Json),
    acc.snoc x = acc.append (.cons x .nil)
  | .nil, _ => rfl
  | .cons y tl, x => by
    rw [JsonList.snoc, JsonList.append, JsonList.snoc_eq_append tl x]

theorem JsonList.snoc_append (acc : JsonList) (x : Json) (tl : JsonList) :
    (acc.snoc x).append tl = acc.append (.cons x tl) := by
  rw [JsonList.snoc_eq_append, jsonList_append_assoc]
  rfl

theorem jsonMembers_nil_append (ys : JsonMembers) :
    JsonMembers.nil.append ys = ys := rfl

theorem jsonMembers_append_assoc : ∀ a b c : JsonMembers,
    (a.append b).append c = a.append (b.append c)
  | .nil, _, _ => rfl
  | .cons k v tl, b, c => by
    rw [JsonMembers.append, JsonMembers.append, JsonMembers.append,
      jsonMembers_append_assoc tl b c]

theorem insertKV_fresh : ∀ (acc : JsonMembers) (k : List Char) (v : Json),
    hasKey acc k = false → insertKV acc k v = acc.append (.cons k v .nil)
  | .nil, _, _, _ => rfl
  | .cons k0 v0 tl, k, v, h => by
    rw [hasKey] at h
    by_cases hk : k0 = k
    · rw [if_pos hk] at h; exact absurd h (by simp)
    · rw [if_neg hk] at h
      rw [insertKV, if_neg hk, JsonMembers.append, insertKV_fresh tl k v h]

theorem insertKV_append (acc : JsonMembers) (k : List Char) (v : Json)
    (tl : JsonMembers) (h : hasKey acc k = false) :
    (insertKV acc k v).append tl = acc.append (.cons k v tl) := by
  rw [insertKV_fresh acc k v h, jsonMembers_append_assoc]
  rfl

theorem hasKey_append : ∀ (a b : JsonMembers) (k : List Char),
    hasKey (a.append b) k = (hasKey a k || hasKey b k)
  | .nil, _, _ => by simp [JsonMembers.append, hasKey]
  | .cons k0 v tl, b, k => by
    rw [JsonMembers.append, hasKey, hasKey]
    by_cases hk : k0 = k
    · simp [hk]
    · simp [hk, hasKey_append tl b k]

/- ===== C7 machinery: character class facts ===== -/

theorem ne_of_isDigit {c d : Char} (h : c.isDigit = true) (hd : d.isDigit = false) :
    c ≠ d := by
  intro hc
  rw [hc] at h
  rw [h] at hd
  exact absurd hd (by simp)

theorem isJsonWs_false_of_isDigit {c : Char} (h : c.isDigit = true) :
    isJsonWs c = false := by
  have h1 : c ≠ ' ' := ne_of_isDigit h (by decide)
  have h2 : c ≠ '\t' := ne_of_isDigit h (by decide)
  have h3 : c ≠ '\n' := ne_of_isDigit h (by decide)
  have h4 : c ≠ '\r' := ne_of_isDigit h (by decide)
  simp [isJsonWs, h1, h2, h3, h4]

/-- Dropping no whitespace: skipWs is the identity on a list whose head is
not whitespace. -/
theorem skipWs_no_op {c : Char} {r : List Char} (h : isJsonWs c = false) :
    skipWs (c :: r) = c :: r := by
  simp [skipWs, List.dropWhile_cons, h]

/-- goodTail rest: the character that follows a serialized value in any
serialization context (a separator, a closing bracket, a closing brace, or
the end of the text). -/
def goodTail : List Char → Prop
  | [] => True
  | c :: _ => c = ',' ∨ c = ']' ∨ c = rcb

theorem goodTail_floatStart {rest : List Char} (h : goodTail rest) :
    floatStart rest = false := by
  cases rest with
  | nil => rfl
  | cons c r =>
    rcases h with h | h | h <;> subst h <;> simp [floatStart, rcb]

theorem goodTail_head_not_digit {rest : List Char} (h : goodTail rest) :
    ∀ c r, rest = c :: r → c.isDigit = false := by
  intro c r hr
  subst hr
  rcases h with h | h | h <;> subst h <;> decide

/- ===== C7 machinery: decimal digits roundtrip ===== -/

theorem hexDigitChar_isDigit : ∀ m : Nat, m < 10 → (hexDigitChar m).isDigit = true := by
  intro m hm
  interval_cases m <;> decide

theorem charVal_hexDigitChar : ∀ m : Nat, m < 10 → charVal (hexDigitChar m) = m := by
  intro m hm
  interval_cases m <;> decide

theorem hexDigitChar_ne_zero : ∀ m : Nat, 1 ≤ m → m < 10 → hexDigitChar m ≠ '0' := by
  intro m h1 hm
  interval_cases m <;> decide

theorem digitsToNat_concat (acc : Nat) (ds : List Char) (d : Char) :
    digitsToNat acc (ds ++ [d]) = 10 * digitsToNat acc ds + charVal d := by
  simp [digitsToNat, List.foldl_append]

theorem digitsToNat_cons (acc : Nat) (d : Char) (ds : List Char) :
    digitsToNat acc (d :: ds) = digitsToNat (10 * acc + charVal d) ds := rfl

theorem natDigitsGo_spec : ∀ n : Nat, ∀ f : Nat, n < f →
    ∃ c ds, natDigitsGo f n = c :: ds ∧ (∀ x ∈ c :: ds, x.isDigit = true) ∧
      digitsToNat 0 (c :: ds) = n ∧ (1 ≤ n → c ≠ '0') := by
  intro n
  induction n using Nat.strong_induction_on with
  | _ n ih =>
    intro f hf
    match f, hf with
    | f + 1, _ =>
      by_cases h10 : n < 10
      · refine ⟨hexDigitChar n, [], by simp [natDigitsGo, h10], ?_, ?_, ?_⟩
        · intro x hx
          simp only [List.mem_singleton] at hx
          subst hx
          exact hexDigitChar_isDigit n h10
        · rw [digitsToNat_cons]
          simp [digitsToNat, charVal_hexDigitChar n h10]
        · intro h1
          exact hexDigitChar_ne_zero n h1 h10
      · have hrec : n / 10 < n := Nat.div_lt_self (by omega) (by omega)
        have hreclt : n / 10 < f := by omega
        obtain ⟨c, ds, heq, hdig, hval, hz⟩ := ih (n / 10) hrec f hreclt
        refine ⟨c, ds ++ [hexDigitChar (n % 10)], ?_, ?_, ?_, ?_⟩
        · rw [natDigitsGo, if_neg h10, heq]
          simp
        · intro x hx
          rw [show c :: (ds ++ [hexDigitChar (n % 10)]) =
              (c :: ds) ++ [hexDigitChar (n % 10)] from rfl] at hx
          rcases List.mem_append.mp hx with hx1 | hx1
          · exact hdig x hx1
          · simp only [List.mem_singleton] at hx1
            subst hx1
            exact hexDigitChar_isDigit _ (Nat.mod_lt _ (by omega))
        · rw [show c :: (ds ++ [hexDigitChar (n % 10)]) =
              (c :: ds) ++ [hexDigitChar (n % 10)] from rfl]
          rw [digitsToNat_concat, hval, charVal_hexDigitChar _ (Nat.mod_lt _ (by omega))]
          omega
        · intro _
          exact hz (by omega)

theorem natToDigits_spec (n : Nat) :
    ∃ c ds, natToDigits n = c :: ds ∧ (∀ x ∈ c :: ds, x.isDigit = true) ∧
      digitsToNat 0 (c :: ds) = n ∧ (1 ≤ n → c ≠ '0') :=
  natDigitsGo_spec n (n + 1) (by omega)

theorem takeWhile_digits_append {ds rest : List Char}
    (hds : ∀ x ∈ ds, x.isDigit = true)
    (hrest : ∀ c r, rest = c :: r → c.isDigit = false) :
    (ds ++ rest).takeWhile Char.isDigit = ds ∧
    (ds ++ rest).dropWhile Char.isDigit = rest := by
  induction ds with
  | nil =>
    cases rest with
    | nil => exact ⟨rfl, rfl⟩
    | cons c r =>
      have hc := hrest c r rfl
      simp [List.takeWhile_cons, List.dropWhile_cons, hc]
  | cons d ds ih =>
    have hd : d.isDigit = true := hds d (by simp)
    have hds' : ∀ x ∈ ds, x.isDigit = true := fun x hx => hds x (by simp [hx])
    obtain ⟨h1, h2⟩ := ih hds'
    simp [List.takeWhile_cons, List.dropWhile_cons, hd, h1, h2]

theorem parseNat_natToDigits (n : Nat) (rest : List Char) (h : goodTail rest) :
    parseNat (natToDigits n ++ rest) = some (n, rest) := by
  by_cases hn0 : n = 0
  · subst hn0
    rw [show natToDigits 0 = ['0'] from rfl]
    simp [parseNat, goodTail_floatStart h]
  · obtain ⟨c, ds, heq, hdig, hval, hz⟩ := natToDigits_spec n
    have h1 : 1 ≤ n := by omega
    have hc : c.isDigit = true := hdig c (by simp)
    have hcne : c ≠ '0' := hz h1
    have hdtail : ∀ x ∈ ds, x.isDigit = true := fun x hx => hdig x (by simp [hx])
    obtain ⟨htw, hdw⟩ := takeWhile_digits_append hdtail (goodTail_head_not_digit h)
    rw [heq, List.cons_append, parseNat]
    rw [if_neg hcne, if_pos hc]
    simp only [htw, hdw, goodTail_floatStart h, if_neg]
    rw [digitsToNat_cons] at hval
    simp only [Nat.mul_zero, Nat.zero_add] at hval
    simp [hval]

theorem intDigits_head (i : Int) :
    ∃ c cs, intDigits i = c :: cs ∧ (c = '-' ∨ c.isDigit = true) := by
  by_cases hneg : i < 0
  · exact ⟨'-', natToDigits i.natAbs, by rw [intDigits, if_pos hneg], Or.inl rfl⟩
  · obtain ⟨c, ds, heq, hdig, -, -⟩ := natToDigits_spec i.toNat
    exact ⟨c, ds, by rw [intDigits, if_neg hneg, heq], Or.inr (hdig c (by simp))⟩

theorem parseNumber_intDigits (i : Int) (rest : List Char) (h : goodTail rest) :
    parseNumber (intDigits i ++ rest) = some (Json.num i, rest) := by
  by_cases hneg : i < 0
  · rw [intDigits, if_pos hneg, List.cons_append, parseNumber, if_pos rfl,
      parseNat_natToDigits i.natAbs rest h]
    simp only [Option.map_some']
    have : -(i.natAbs : Int) = i := by omega
    rw [this]
  · obtain ⟨c, ds, heq, hdig, -, -⟩ := natToDigits_spec i.toNat
    have hc : c.isDigit = true := hdig c (by simp)
    have hcne : c ≠ '-' := ne_of_isDigit hc (by decide)
    rw [intDigits, if_neg hneg, heq, List.cons_append, parseNumber, if_neg hcne,
      ← List.cons_append, ← heq, parseNat_natToDigits i.toNat rest h]
    simp only [Option.map_some']
    have : (i.toNat : Int) = i := by omega
    rw [this]

/- ===== C7 machinery: string literal roundtrip ===== -/

theorem hexVal_hexDigitChar : ∀ m : Nat, m < 16 → hexVal (hexDigitChar m) = some m := by
  intro m hm
  interval_cases m <;> decide

theorem parseStrBody_quote_esc (X : List Char) :
    parseStrBody ('\\' :: '"' :: X) =
      (parseStrBody X).map (fun p => ('"' :: p.1, p.2)) := by
  rw [parseStrBody.eq_def]
  simp [escDecode]

theorem parseStrBody_backslash_esc (X : List Char) :
    parseStrBody ('\\' :: '\\' :: X) =
      (parseStrBody X).map (fun p => ('\\' :: p.1, p.2)) := by
  rw [parseStrBody.eq_def]
  simp [escDecode]

theorem parseStrBody_lit (X : List Char) (c : Char) (h1 : ¬ c = '"')
    (h2 : ¬ c = '\\') (h3 : ¬ c.toNat < 32) :
    parseStrBody (c :: X) =
      (parseStrBody X).map (fun p => (c :: p.1, p.2)) := by
  rw [parseStrBody.eq_def]
  simp only [if_neg h1, if_neg h2, if_neg h3]

theorem parseStrBody_u_esc (d1 d2 : Char) (a b : Nat) (X : List Char)
    (h1 : hexVal d1 = some a) (h2 : hexVal d2 = some b)
    (hlt : 4096 * 0 + 256 * 0 + 16 * a + b < 55296) :
    parseStrBody ('\\' :: 'u' :: '0' :: '0' :: d1 :: d2 :: X) =
      (parseStrBody X).map
        (fun p => (Char.ofNat (4096 * 0 + 256 * 0 + 16 * a + b) :: p.1, p.2)) := by
  rw [parseStrBody.eq_def]
  simp only [if_neg (show ¬ ('\\' : Char) = '"' by decide),
    if_pos (show ('\\' : Char) = '\\' from rfl),
    if_pos (show ('u' : Char) = 'u' from rfl),
    show hexVal '0' = some 0 from rfl, h1, h2]
  rw [if_pos hlt]
  simp

theorem parseStrBody_escBody : ∀ (s rest : List Char),
    parseStrBody (escBody s ++ '"' :: rest) = some (s, rest)
  | [], rest => by
    rw [show escBody [] ++ '"' :: rest = '"' :: rest from rfl, parseStrBody.eq_def]
    simp
  | c :: s, rest => by
    rw [escBody]
    by_cases h1 : c = '"'
    · subst h1
      rw [show escChar '"' = ['\\', '"'] from rfl]
      rw [show (['\\', '"'] ++ escBody s) ++ '"' :: rest =
        '\\' :: '"' :: (escBody s ++ '"' :: rest) by simp]
      rw [parseStrBody_quote_esc, parseStrBody_escBody s rest]
      rfl
    · by_cases h2 : c = '\\'
      · subst h2
        rw [show escChar '\\' = ['\\', '\\'] from rfl]
        rw [show (['\\', '\\'] ++ escBody s) ++ '"' :: rest =
          '\\' :: '\\' :: (escBody s ++ '"' :: rest) by simp]
        rw [parseStrBody_backslash_esc, parseStrBody_escBody s rest]
        rfl
      · by_cases h3 : c.toNat < 32
        · rw [escChar, if_neg h1, if_neg h2, if_pos h3]
          rw [show (['\\', 'u', '0', '0', hexDigitChar (c.toNat / 16),
              hexDigitChar (c.toNat % 16)] ++ escBody s) ++ '"' :: rest =
            '\\' :: 'u' :: '0' :: '0' :: hexDigitChar (c.toNat / 16) ::
              hexDigitChar (c.toNat % 16) :: (escBody s ++ '"' :: rest) by simp]
          rw [parseStrBody_u_esc (hexDigitChar (c.toNat / 16))
            (hexDigitChar (c.toNat % 16)) (c.toNat / 16) (c.toNat % 16)
            (escBody s ++ '"' :: rest)
            (hexVal_hexDigitChar _ (by omega))
            (hexVal_hexDigitChar _ (Nat.mod_lt _ (by omega)))
            (by omega)]
          rw [parseStrBody_escBody s rest]
          have hcn : 4096 * 0 + 256 * 0 + 16 * (c.toNat / 16) + c.toNat % 16 =
              c.toNat := by omega
          rw [show (Option.map
              (fun p => (Char.ofNat (4096 * 0 + 256 * 0 + 16 * (c.toNat / 16) +
                c.toNat % 16) :: p.1, p.2)) (some (s, rest))) =
            some (Char.ofNat c.toNat :: s, rest) by rw [hcn]; rfl]
          rw [Char.ofNat_toNat]
        · rw [escChar, if_neg h1, if_neg h2, if_neg h3]
          rw [show ([c] ++ escBody s) ++ '"' :: rest =
            c :: (escBody s ++ '"' :: rest) by simp]
          rw [parseStrBody_lit _ c h1 h2 h3, parseStrBody_escBody s rest]
          rfl

/- ===== C7 machinery: shape of serialized output ===== -/

theorem dumps_head_spec : ∀ v : Json, ∃ c cs, dumps v = c :: cs ∧
    isJsonWs c = false ∧ c ≠ ']' ∧ c ≠ rcb
  | .null => ⟨'n', ['u', 'l', 'l'], by simp [dumps], by decide, by decide, by decide⟩
  | .bool true => ⟨'t', ['r', 'u', 'e'], by simp [dumps], by decide, by decide, by decide⟩
  | .bool false => ⟨'f', ['a', 'l', 's', 'e'], by simp [dumps], by decide, by decide, by decide⟩
  | .num i => by
    obtain ⟨c, cs, heq, hc⟩ := intDigits_head i
    refine ⟨c, cs, by simp [dumps, heq], ?_, ?_, ?_⟩
    · rcases hc with hc | hc
      · subst hc; decide
      · exact isJsonWs_false_of_isDigit hc
    · rcases hc with hc | hc
      · subst hc; decide
      · exact ne_of_isDigit hc (by decide)
    · rcases hc with hc | hc
      · subst hc; decide
      · exact ne_of_isDigit hc (by decide)
  | .fnum _ => ⟨'0', [], by simp [dumps, intDigits, natToDigits, natDigitsGo], by decide, by decide, by decide⟩
  | .str s => ⟨'"', escBody s ++ ['"'], by simp [dumps, dumpString], by decide, by decide, by decide⟩
  | .arr xs => ⟨'[', dumpsList xs ++ [']'], by simp [dumps], by decide, by decide, by decide⟩
  | .obj m => ⟨lcb, dumpsMembers m ++ [rcb], by simp [dumps], by decide, by decide, by decide⟩

theorem dumpsList_cons (x : Json) (tl : JsonList) :
    ∃ t, dumpsList (.cons x tl) = dumps x ++ t := by
  cases tl with
  | nil => exact ⟨[], by simp [dumpsList]⟩
  | cons y tl2 => exact ⟨',' :: dumpsList (.cons y tl2), by simp [dumpsList]⟩

theorem dumpsMembers_cons (k : List Char) (v : Json) (tl : JsonMembers) :
    ∃ t, dumpsMembers (.cons k v tl) = '"' :: (escBody k ++ '"' :: ':' :: t) := by
  cases tl with
  | nil =>
    refine ⟨dumps v, ?_⟩
    simp [dumpsMembers, dumpString]
  | cons k2 v2 tl2 =>
    refine ⟨dumps v ++ ',' :: dumpsMembers (.cons k2 v2 tl2), ?_⟩
    simp [dumpsMembers, dumpString]

/- ===== C7 machinery: the scanner depth is covered by the fuel ===== -/

mutual
theorem fuelVal_le : ∀ v : Json, fuelVal v ≤ (dumps v).length
  | .null => by simp [fuelVal, dumps]
  | .bool true => by simp [fuelVal, dumps]
  | .bool false => by simp [fuelVal, dumps]
  | .num i => by
    obtain ⟨c, cs, heq, -⟩ := intDigits_head i
    simp [fuelVal, dumps, heq]
  | .fnum _ => by simp [fuelVal, dumps]
  | .str s => by simp [fuelVal, dumps, dumpString]
  | .arr xs => by
    have h := fuelElems_le xs
    simp only [fuelVal, dumps, List.length_cons, List.length_append,
      List.length_singleton]
    omega
  | .obj m => by
    have h := fuelMembers_le m
    simp only [fuelVal, dumps, List.length_cons, List.length_append,
      List.length_singleton]
    omega
theorem fuelElems_le : ∀ xs : JsonList, fuelElems xs ≤ (dumpsList xs).length + 1
  | .nil => by simp [fuelElems, dumpsList]
  | .cons x .nil => by
    have h := fuelVal_le x
    simp only [fuelElems, fuelElems.eq_1, Nat.max_zero, dumpsList]
    omega
  | .cons x (.cons y tl) => by
    have h1 := fuelVal_le x
    have h2 := fuelElems_le (.cons y tl)
    rw [fuelElems]
    simp only [dumpsList, List.length_append, List.length_cons]
    omega
theorem fuelMembers_le : ∀ m : JsonMembers, fuelMembers m ≤ (dumpsMembers m).length + 1
  | .nil => by simp [fuelMembers, dumpsMembers]
  | .cons k v .nil => by
    have h := fuelVal_le v
    simp only [fuelMembers, fuelMembers.eq_1, Nat.max_zero, dumpsMembers,
      dumpString, List.length_append, List.length_cons]
    omega
  | .cons k v (.cons k2 v2 tl) => by
    have h1 := fuelVal_le v
    have h2 := fuelMembers_le (.cons k2 v2 tl)
    rw [fuelMembers]
    simp only [dumpsMembers, dumpString, List.length_append, List.length_cons]
    omega
end

/- ===== C7 machinery: whitespace is a no-op on serialized output ===== -/

theorem skipWs_dumps_append (v : Json) (X : List Char) :
    skipWs (dumps v ++ X) = dumps v ++ X := by
  obtain ⟨c, cs, heq, hws, -, -⟩ := dumps_head_spec v
  rw [heq, List.cons_append, skipWs_no_op hws]

theorem skipWs_dumpsList_cons_append (x : Json) (tl : JsonList) (X : List Char) :
    skipWs (dumpsList (.cons x tl) ++ X) = dumpsList (.cons x tl) ++ X := by
  obtain ⟨t, ht⟩ := dumpsList_cons x tl
  rw [ht, List.append_assoc, skipWs_dumps_append, ← List.append_assoc]

theorem skipWs_dumpsMembers_cons_append (k : List Char) (v : Json)
    (tl : JsonMembers) (X : List Char) :
    skipWs (dumpsMembers (.cons k v tl) ++ X) = dumpsMembers (.cons k v tl) ++ X := by
  obtain ⟨t, ht⟩ := dumpsMembers_cons k v tl
  rw [ht, List.cons_append, skipWs_no_op (show isJsonWs '"' = false by decide)]

/- ===== C7: the scanner re-reads its own serialization ===== -/

theorem parse_dumps_all : ∀ f : Nat,
    (∀ (v : Json) (rest : List Char), wfJ v = true → fuelVal v ≤ f → goodTail rest →
      parseStep f (.val (dumps v ++ rest)) = some (v, rest)) ∧
    (∀ (xs : JsonList) (acc : JsonList) (rest : List Char), xs ≠ .nil →
      wfL xs = true → fuelElems xs ≤ f →
      parseStep f (.elems acc (dumpsList xs ++ ']' :: rest)) =
        some (Json.arr (acc.append xs), rest)) ∧
    (∀ (m : JsonMembers) (acc : JsonMembers) (rest : List Char), m ≠ .nil →
      wfM m = true → distinctKeys m = true → fuelMembers m ≤ f →
      (∀ k, hasKey m k = true → hasKey acc k = false) →
      parseStep f (.members acc (dumpsMembers m ++ rcb :: rest)) =
        some (Json.obj (acc.append m), rest)) := by
  intro f
  induction f with
  | zero =>
    refine ⟨?_, ?_, ?_⟩
    · intro v rest _ hfu _
      exact absurd hfu (by have := fuelVal_pos v; omega)
    · intro xs acc rest hne _ hfu
      exact absurd hfu (by have := fuelElems_pos hne; omega)
    · intro m acc rest hne _ _ hfu _
      exact absurd hfu (by have := fuelMembers_pos hne; omega)
  | succ f ih =>
    obtain ⟨ihv, ihe, ihm⟩ := ih
    refine ⟨?_, ?_, ?_⟩
    · intro v rest hwf hfu hgt
      cases v with
      | null =>
        rw [show dumps Json.null ++ rest = 'n' :: 'u' :: 'l' :: 'l' :: rest by
          simp [dumps]]
        rw [parseStep.eq_def]
        simp [lcb]
      | bool b =>
        cases b with
        | true =>
          rw [show dumps (Json.bool true) ++ rest = 't' :: 'r' :: 'u' :: 'e' :: rest by
            simp [dumps]]
          rw [parseStep.eq_def]
          simp [lcb]
        | false =>
          rw [show dumps (Json.bool false) ++ rest =
            'f' :: 'a' :: 'l' :: 's' :: 'e' :: rest by simp [dumps]]
          rw [parseStep.eq_def]
          simp [lcb]
      | num i =>
        obtain ⟨c, cs, heq, hc⟩ := intDigits_head i
        have hnum := parseNumber_intDigits i rest hgt
        rw [show dumps (Json.num i) = intDigits i from by simp [dumps]]
        rw [heq] at hnum ⊢
        rw [List.cons_append] at hnum ⊢
        have f1 : ¬ c = '"' := by
          rcases hc with hc | hc
          · subst hc; decide
          · exact ne_of_isDigit hc (by decide)
        have f2 : ¬ c = lcb := by
          rcases hc with hc | hc
          · subst hc; decide
          · exact ne_of_isDigit hc (by decide)
        have f3 : ¬ c = '[' := by
          rcases hc with hc | hc
          · subst hc; decide
          · exact ne_of_isDigit hc (by decide)
        have f4 : ¬ c = 't' := by
          rcases hc with hc | hc
          · subst hc; decide
          · exact ne_of_isDigit hc (by decide)
        have f5 : ¬ c = 'f' := by
          rcases hc with hc | hc
          · subst hc; decide
          · exact ne_of_isDigit hc (by decide)
        have f6 : ¬ c = 'n' := by
          rcases hc with hc | hc
          · subst hc; decide
          · exact ne_of_isDigit hc (by decide)
        rw [parseStep.eq_def]
        simp only [if_neg f1, if_neg f2, if_neg f3, if_neg f4, if_neg f5, if_neg f6]
        exact hnum
      | fnum q => exact absurd hwf (by simp [wfJ])
      | str s =>
        rw [show dumps (Json.str s) ++ rest = '"' :: (escBody s ++ '"' :: rest) by
          simp [dumps, dumpString]]
        rw [parseStep.eq_def]
        simp [parseStrBody_escBody]
      | arr xs =>
        cases xs with
        | nil =>
          rw [show dumps (Json.arr .nil) ++ rest = '[' :: ']' :: rest by
            simp [dumps, dumpsList]]
          rw [parseStep.eq_def]
          simp [skipWs_no_op (show isJsonWs ']' = false by decide), lcb]
        | cons x tl =>
          have hfe : fuelElems (.cons x tl) ≤ f := by
            rw [fuelVal] at hfu; omega
          have hwl : wfL (.cons x tl) = true := by
            rw [wfJ] at hwf; exact hwf
          have hstep := ihe (.cons x tl) .nil rest (by simp) hwl hfe
          rw [jsonList_nil_append] at hstep
          rw [show dumps (Json.arr (.cons x tl)) ++ rest =
              '[' :: (dumpsList (.cons x tl) ++ ']' :: rest) by simp [dumps]]
          have hsk := skipWs_dumpsList_cons_append x tl (']' :: rest)
          obtain ⟨t, ht⟩ := dumpsList_cons x tl
          obtain ⟨c0, cs0, hx0, hws0, hbr0, hbc0⟩ := dumps_head_spec x
          have hcond : ¬ ((dumpsList (.cons x tl) ++ ']' :: rest).head? = some ']') := by
            rw [ht, hx0]
            simp [hbr0]
          rw [parseStep.eq_def]
          simp only [if_neg (show ¬ ('[' : Char) = '"' by decide),
            if_neg (show ¬ ('[' : Char) = lcb by decide),
            if_pos (show ('[' : Char) = '[' from rfl)]
          rw [hsk, if_neg hcond]
          exact hstep
      | obj m =>
        cases m with
        | nil =>
          rw [show dumps (Json.obj .nil) ++ rest = lcb :: rcb :: rest by
            simp [dumps, dumpsMembers]]
          rw [parseStep.eq_def]
          simp [skipWs_no_op (show isJsonWs rcb = false by decide), lcb]
        | cons k v tl =>
          have hfm : fuelMembers (.cons k v tl) ≤ f := by
            rw [fuelVal] at hfu; omega
          have hwm : wfM (.cons k v tl) = true := by
            rw [wfJ] at hwf
            simp only [Bool.and_eq_true] at hwf
            exact hwf.2
          have hdk : distinctKeys (.cons k v tl) = true := by
            rw [wfJ] at hwf
            simp only [Bool.and_eq_true] at hwf
            exact hwf.1
          have hstep := ihm (.cons k v tl) .nil rest (by simp) hwm hdk hfm
            (fun k' _ => rfl)
          rw [jsonMembers_nil_append] at hstep
          rw [show dumps (Json.obj (.cons k v tl)) ++ rest =
              lcb :: (dumpsMembers (.cons k v tl) ++ rcb :: rest) by simp [dumps]]
          have hsk := skipWs_dumpsMembers_cons_append k v tl (rcb :: rest)
          obtain ⟨t, ht⟩ := dumpsMembers_cons k v tl
          have hcond : ¬ ((dumpsMembers (.cons k v tl) ++ rcb :: rest).head? =
              some rcb) := by
            rw [ht]
            simp
            decide
          rw [parseStep.eq_def]
          simp only [if_neg (show ¬ lcb = '"' by decide),
            if_pos (show lcb = lcb from rfl)]
          rw [hsk, if_neg hcond]
          exact hstep
    · intro xs acc rest hne hwf hfu
      cases xs with
      | nil => exact absurd rfl hne
      | cons x tl =>
        have hwx : wfJ x = true := by
          rw [wfL] at hwf
          simp only [Bool.and_eq_true] at hwf
          exact hwf.1
        have hwtl : wfL tl = true := by
          rw [wfL] at hwf
          simp only [Bool.and_eq_true] at hwf
          exact hwf.2
        have hfx : fuelVal x ≤ f := by rw [fuelElems] at hfu; omega
        have hftl : fuelElems tl ≤ f := by rw [fuelElems] at hfu; omega
        cases tl with
        | nil =>
          rw [show dumpsList (.cons x .nil) = dumps x by simp [dumpsList]]
          have hv := ihv x (']' :: rest) hwx hfx (Or.inr (Or.inl rfl))
          rw [parseStep.eq_def]
          simp [hv, skipWs_no_op (show isJsonWs ']' = false by decide),
            JsonList.snoc_eq_append]
        | cons y tl2 =>
          rw [show dumpsList (.cons x (.cons y tl2)) =
            dumps x ++ ',' :: dumpsList (.cons y tl2) by simp [dumpsList]]
          rw [List.append_assoc, List.cons_append]
          have hv := ihv x (',' :: (dumpsList (.cons y tl2) ++ ']' :: rest)) hwx hfx
            (Or.inl rfl)
          have hrec := ihe (.cons y tl2) (acc.snoc x) rest (by simp) hwtl hftl
          rw [JsonList.snoc_append] at hrec
          rw [parseStep.eq_def]
          simp only [hv, skipWs_no_op (show isJsonWs ',' = false by decide),
            skipWs_dumpsList_cons_append]
          simpa using hrec
    · intro m acc rest hne hwf hdk hfu hfr
      cases m with
      | nil => exact absurd rfl hne
      | cons k v tl =>
        have hwv : wfJ v = true := by
          rw [wfM] at hwf
          simp only [Bool.and_eq_true] at hwf
          exact hwf.1
        have hwtl : wfM tl = true := by
          rw [wfM] at hwf
          simp only [Bool.and_eq_true] at hwf
          exact hwf.2
        have hktl : hasKey tl k = false := by
          rw [distinctKeys] at hdk
          simp only [Bool.and_eq_true, Bool.not_eq_true'] at hdk
          exact hdk.1
        have hdtl : distinctKeys tl = true := by
          rw [distinctKeys] at hdk
          simp only [Bool.and_eq_true] at hdk
          exact hdk.2
        have hfv : fuelVal v ≤ f := by rw [fuelMembers] at hfu; omega
        have hftl : fuelMembers tl ≤ f := by rw [fuelMembers] at hfu; omega
        have hacck : hasKey acc k = false := by
          apply hfr k
          rw [hasKey, if_pos rfl]
        cases tl with
        | nil =>
          have hsh : dumpsMembers (.cons k v .nil) ++ rcb :: rest =
              '"' :: (escBody k ++ '"' :: (':' :: (dumps v ++ rcb :: rest))) := by
            simp [dumpsMembers, dumpString]
          rw [hsh]
          have hv := ihv v (rcb :: rest) hwv hfv (Or.inr (Or.inr rfl))
          rw [parseStep.eq_def]
          simp [parseStrBody_escBody k (':' :: (dumps v ++ rcb :: rest)),
            skipWs_no_op (show isJsonWs ':' = false by decide),
            skipWs_dumps_append, hv,
            skipWs_no_op (show isJsonWs rcb = false by decide),
            show ¬ rcb = ',' by decide,
            insertKV_fresh acc k v hacck]
        | cons k2 v2 tl2 =>
          have hsh : dumpsMembers (.cons k v (.cons k2 v2 tl2)) ++ rcb :: rest =
              '"' :: (escBody k ++ '"' :: (':' :: (dumps v ++ ',' ::
                (dumpsMembers (.cons k2 v2 tl2) ++ rcb :: rest)))) := by
            simp [dumpsMembers, dumpString]
          rw [hsh]
          have hv := ihv v (',' :: (dumpsMembers (.cons k2 v2 tl2) ++ rcb :: rest))
            hwv hfv (Or.inl rfl)
          have hfr2 : ∀ k', hasKey (.cons k2 v2 tl2) k' = true →
              hasKey (insertKV acc k v) k' = false := by
            intro k' hk'
            have hkne : ¬ (k = k') := by
              intro he
              subst he
              rw [hk'] at hktl
              exact absurd hktl (by simp)
            have h1 : hasKey acc k' = false := by
              apply hfr k'
              rw [hasKey, if_neg hkne]
              exact hk'
            rw [insertKV_fresh acc k v hacck, hasKey_append, h1]
            rw [hasKey, if_neg hkne, hasKey]
            rfl
          have hrec := ihm (.cons k2 v2 tl2) (insertKV acc k v) rest (by simp)
            hwtl hdtl hftl hfr2
          rw [insertKV_append acc k v _ hacck] at hrec
          rw [parseStep.eq_def]
          simp only [parseStrBody_escBody k (':' :: (dumps v ++ ',' ::
              (dumpsMembers (.cons k2 v2 tl2) ++ rcb :: rest))),
            skipWs_no_op (show isJsonWs ':' = false by decide),
            skipWs_dumps_append, hv,
            skipWs_no_op (show isJsonWs ',' = false by decide),
            skipWs_dumpsMembers_cons_append]
          simpa using hrec

/- ===== C7 machinery: every parsed value is well-formed ===== -/

theorem wfL_snoc : ∀ (acc : JsonList) (x : Json),
    wfL acc = true → wfJ x = true → wfL (acc.snoc x) = true
  | .nil, x, _, hx => by simp [JsonList.snoc, wfL, hx]
  | .cons y tl, x, hacc, hx => by
    rw [wfL] at hacc
    simp only [Bool.and_eq_true] at hacc
    rw [JsonList.snoc, wfL]
    simp only [Bool.and_eq_true]
    exact ⟨hacc.1, wfL_snoc tl x hacc.2 hx⟩

theorem wfM_insert : ∀ (acc : JsonMembers) (k : List Char) (v : Json),
    wfM acc = true → wfJ v = true → wfM (insertKV acc k v) = true
  | .nil, k, v, _, hv => by simp [insertKV, wfM, hv]
  | .cons k0 v0 tl, k, v, hacc, hv => by
    rw [wfM] at hacc
    simp only [Bool.and_eq_true] at hacc
    rw [insertKV]
    by_cases hk : k0 = k
    · rw [if_pos hk, wfM]
      simp only [Bool.and_eq_true]
      exact ⟨hv, hacc.2⟩
    · rw [if_neg hk, wfM]
      simp only [Bool.and_eq_true]
      exact ⟨hacc.1, wfM_insert tl k v hacc.2 hv⟩

theorem hasKey_insert : ∀ (m : JsonMembers) (k : List Char) (v : Json) (q : List Char),
    hasKey (insertKV m k v) q = if k = q then true else hasKey m q
  | .nil, k, v, q => by
    rw [insertKV, hasKey, hasKey]
    by_cases hk : k = q <;> simp [hk, hasKey]
  | .cons k0 v0 tl, k, v, q => by
    rw [insertKV]
    by_cases hk : k0 = k
    · rw [if_pos hk, hasKey, hasKey]
      subst hk
      by_cases hq : k0 = q <;> simp [hq]
    · rw [if_neg hk, hasKey, hasKey_insert tl k v q, hasKey]
      by_cases hq : k0 = q
      · subst hq
        rw [if_pos rfl, if_pos rfl]
        have : ¬ k = k0 := fun he => hk he.symm
        rw [if_neg this]
      · rw [if_neg hq, if_neg hq]

theorem distinct_insert : ∀ (m : JsonMembers) (k : List Char) (v : Json),
    distinctKeys m = true → distinctKeys (insertKV m k v) = true
  | .nil, k, v, _ => by simp [insertKV, distinctKeys, hasKey]
  | .cons k0 v0 tl, k, v, hd => by
    rw [distinctKeys] at hd
    simp only [Bool.and_eq_true, Bool.not_eq_true'] at hd
    rw [insertKV]
    by_cases hk : k0 = k
    · rw [if_pos hk, distinctKeys]
      simp only [Bool.and_eq_true, Bool.not_eq_true']
      exact hd
    · rw [if_neg hk, distinctKeys]
      simp only [Bool.and_eq_true, Bool.not_eq_true']
      refine ⟨?_, distinct_insert tl k v hd.2⟩
      rw [hasKey_insert tl k v k0]
      rw [if_neg (fun he => hk he.symm)]
      exact hd.1

theorem parseNumber_shape : ∀ (l : List Char) (v : Json) (r : List Char),
    parseNumber l = some (v, r) → ∃ i, v = Json.num i := by
  intro l v r h
  cases l with
  | nil =>
    replace h : (none : Option (Json × List Char)) = some (v, r) := h
    exact absurd h (by simp)
  | cons c t =>
    replace h : (if c = '-' then
        Option.map (fun p => (Json.num (-(p.1 : Int)), p.2)) (parseNat t)
      else Option.map (fun p => (Json.num (p.1 : Int), p.2)) (parseNat (c :: t))) =
        some (v, r) := h
    by_cases hc : c = '-'
    · rw [if_pos hc] at h
      cases hn : parseNat t with
      | none => rw [hn] at h; exact absurd h (by simp)
      | some p =>
        rw [hn] at h
        simp only [Option.map_some', Option.some.injEq, Prod.mk.injEq] at h
        exact ⟨-(p.1 : Int), h.1.symm⟩
    · rw [if_neg hc] at h
      cases hn : parseNat (c :: t) with
      | none => rw [hn] at h; exact absurd h (by simp)
      | some p =>
        rw [hn] at h
        simp only [Option.map_some', Option.some.injEq, Prod.mk.injEq] at h
        exact ⟨(p.1 : Int), h.1.symm⟩

theorem parse_wf_all : ∀ f : Nat,
    (∀ l v r, parseStep f (.val l) = some (v, r) → wfJ v = true) ∧
    (∀ acc l v r, wfL acc = true → parseStep f (.elems acc l) = some (v, r) →
      wfJ v = true) ∧
    (∀ acc l v r, wfM acc = true → distinctKeys acc = true →
      parseStep f (.members acc l) = some (v, r) → wfJ v = true) := by
  intro f
  induction f with
  | zero =>
    refine ⟨?_, ?_, ?_⟩
    · intro l v r h; exact absurd h (by rw [parseStep]; simp)
    · intro acc l v r _ h; exact absurd h (by rw [parseStep]; simp)
    · intro acc l v r _ _ h; exact absurd h (by rw [parseStep]; simp)
  | succ f ih =>
    obtain ⟨ihv, ihe, ihm⟩ := ih
    refine ⟨?_, ?_, ?_⟩
    · intro l v r h
      cases l with
      | nil => rw [parseStep.eq_def] at h; exact absurd h (by simp)
      | cons c t =>
        rw [parseStep.eq_def] at h
        by_cases h1 : c = '"'
        · simp only [if_pos h1] at h
          cases hps : parseStrBody t with
          | none => rw [hps] at h; exact absurd h (by simp)
          | some p =>
            rw [hps] at h
            simp only [Option.map_some', Option.some.injEq, Prod.mk.injEq] at h
            rw [← h.1, wfJ]
        · by_cases h2 : c = lcb
          · simp only [if_neg h1, if_pos h2] at h
            by_cases h3 : (skipWs t).head? = some rcb
            · rw [if_pos h3] at h
              simp only [Option.some.injEq, Prod.mk.injEq] at h
              rw [← h.1, wfJ, distinctKeys, wfM]
              rfl
            · rw [if_neg h3] at h
              exact ihm .nil (skipWs t) v r rfl rfl h
          · by_cases h3 : c = '['
            · simp only [if_neg h1, if_neg h2, if_pos h3] at h
              by_cases h4 : (skipWs t).head? = some ']'
              · rw [if_pos h4] at h
                simp only [Option.some.injEq, Prod.mk.injEq] at h
                rw [← h.1, wfJ, wfL]
              · rw [if_neg h4] at h
                exact ihe .nil (skipWs t) v r rfl h
            · by_cases h4 : c = 't'
              · simp only [if_neg h1, if_neg h2, if_neg h3, if_pos h4] at h
                split at h
                · simp only [Option.some.injEq, Prod.mk.injEq] at h
                  rw [← h.1, wfJ]
                · exact absurd h (by simp)
              · by_cases h5 : c = 'f'
                · simp only [if_neg h1, if_neg h2, if_neg h3, if_neg h4,
                    if_pos h5] at h
                  split at h
                  · simp only [Option.some.injEq, Prod.mk.injEq] at h
                    rw [← h.1, wfJ]
                  · exact absurd h (by simp)
                · by_cases h6 : c = 'n'
                  · simp only [if_neg h1, if_neg h2, if_neg h3, if_neg h4,
                      if_neg h5, if_pos h6] at h
                    split at h
                    · simp only [Option.some.injEq, Prod.mk.injEq] at h
                      rw [← h.1, wfJ]
                    · exact absurd h (by simp)
                  · simp only [if_neg h1, if_neg h2, if_neg h3, if_neg h4,
                      if_neg h5, if_neg h6] at h
                    obtain ⟨i, hi⟩ := parseNumber_shape _ _ _ h
                    rw [hi, wfJ]
    · intro acc l v r hacc h
      replace h : (match parseStep f (.val l) with
          | none => none
          | some (x, rest) =>
            match skipWs rest with
            | [] => none
            | e :: rest2 =>
              if e = ',' then parseStep f (.elems (JsonList.snoc acc x) (skipWs rest2))
              else if e = ']' then some (Json.arr (JsonList.snoc acc x), rest2)
              else none) = some (v, r) := h
      cases hval : parseStep f (.val l) with
      | none => rw [hval] at h; exact absurd h (by simp)
      | some p =>
        obtain ⟨x, rest⟩ := p
        rw [hval] at h
        replace h : (match skipWs rest with
            | [] => none
            | e :: rest2 =>
              if e = ',' then
                parseStep f (.elems (JsonList.snoc acc x) (skipWs rest2))
              else if e = ']' then some (Json.arr (JsonList.snoc acc x), rest2)
              else none) = some (v, r) := h
        have hwx : wfJ x = true := ihv l x rest hval
        cases hsk : skipWs rest with
        | nil => rw [hsk] at h; exact absurd h (by simp)
        | cons e r2 =>
          rw [hsk] at h
          replace h : (if e = ',' then
                parseStep f (.elems (JsonList.snoc acc x) (skipWs r2))
              else if e = ']' then some (Json.arr (JsonList.snoc acc x), r2)
              else none) = some (v, r) := h
          by_cases he : e = ','
          · simp only [if_pos he] at h
            exact ihe (acc.snoc x) (skipWs r2) v r (wfL_snoc acc x hacc hwx) h
          · by_cases he2 : e = ']'
            · simp only [if_neg he, if_pos he2, Option.some.injEq,
                Prod.mk.injEq] at h
              rw [← h.1, wfJ]
              exact wfL_snoc acc x hacc hwx
            · simp only [if_neg he, if_neg he2] at h
              exact absurd h (by simp)
    · intro acc l v r hacc hdacc h
      rw [parseStep.eq_def] at h
      cases l with
      | nil => exact absurd h (by simp)
      | cons c t =>
        by_cases h1 : c = '"'
        · simp only [if_pos h1] at h
          cases hps : parseStrBody t with
          | none => rw [hps] at h; exact absurd h (by simp)
          | some p =>
            obtain ⟨k, rest⟩ := p
            rw [hps] at h
            replace h : (match skipWs rest with
                | [] => none
                | d :: rest2 =>
                  if d = ':' then
                    match parseStep f (.val (skipWs rest2)) with
                    | none => none
                    | some (x, rest3) =>
                      match skipWs rest3 with
                      | [] => none
                      | e :: rest4 =>
                        if e = ',' then
                          parseStep f (.members (insertKV acc k x) (skipWs rest4))
                        else if e = rcb then
                          some (Json.obj (insertKV acc k x), rest4)
                        else none
                  else none) = some (v, r) := h
            cases hsk : skipWs rest with
            | nil => rw [hsk] at h; exact absurd h (by simp)
            | cons d rest2 =>
              rw [hsk] at h
              replace h : (if d = ':' then
                    match parseStep f (.val (skipWs rest2)) with
                    | none => none
                    | some (x, rest3) =>
                      match skipWs rest3 with
                      | [] => none
                      | e :: rest4 =>
                        if e = ',' then
                          parseStep f (.members (insertKV acc k x) (skipWs rest4))
                        else if e = rcb then
                          some (Json.obj (insertKV acc k x), rest4)
                        else none
                  else none) = some (v, r) := h
              by_cases hd : d = ':'
              · simp only [if_pos hd] at h
                cases hv2 : parseStep f (.val (skipWs rest2)) with
                | none => rw [hv2] at h; exact absurd h (by simp)
                | some q =>
                  obtain ⟨x, rest3⟩ := q
                  rw [hv2] at h
                  replace h : (match skipWs rest3 with
                      | [] => none
                      | e :: rest4 =>
                        if e = ',' then
                          parseStep f (.members (insertKV acc k x) (skipWs rest4))
                        else if e = rcb then
                          some (Json.obj (insertKV acc k x), rest4)
                        else none) = some (v, r) := h
                  have hwx : wfJ x = true := ihv (skipWs rest2) x rest3 hv2
                  cases hsk3 : skipWs rest3 with
                  | nil => rw [hsk3] at h; exact absurd h (by simp)
                  | cons e rest4 =>
                    rw [hsk3] at h
                    replace h : (if e = ',' then
                          parseStep f (.members (insertKV acc k x) (skipWs rest4))
                        else if e = rcb then
                          some (Json.obj (insertKV acc k x), rest4)
                        else none) = some (v, r) := h
                    by_cases he : e = ','
                    · simp only [if_pos he] at h
                      exact ihm (insertKV acc k x) (skipWs rest4) v r
                        (wfM_insert acc k x hacc hwx)
                        (distinct_insert acc k x hdacc) h
                    · by_cases he2 : e = rcb
                      · simp only [if_neg he, if_pos he2, Option.some.injEq,
                          Prod.mk.injEq] at h
                        rw [← h.1, wfJ]
                        simp only [Bool.and_eq_true]
                        exact ⟨distinct_insert acc k x hdacc,
                          wfM_insert acc k x hacc hwx⟩
                      · simp only [if_neg he, if_neg he2] at h
                        exact absurd h (by simp)
              · simp only [if_neg hd] at h
                exact absurd h (by simp)
        · simp only [if_neg h1] at h
          exact absurd h (by simp)

/- ===== C7 machinery: a parsed candidate headed by a brace is an object ===== -/

theorem parse_members_obj : ∀ (f : Nat) (acc : JsonMembers) (l : List Char)
    (v : Json) (r : List Char),
    parseStep f (.members acc l) = some (v, r) → ∃ mm, v = Json.obj mm := by
  intro f
  induction f with
  | zero =>
    intro acc l v r h
    replace h : (none : Option (Json × List Char)) = some (v, r) := h
    exact absurd h (by simp)
  | succ f ih =>
    intro acc l v r h
    cases l with
    | nil =>
      replace h : (none : Option (Json × List Char)) = some (v, r) := h
      exact absurd h (by simp)
    | cons c t =>
      rw [parseStep.eq_def] at h
      by_cases h1 : c = '"'
      · simp only [if_pos h1] at h
        cases hps : parseStrBody t with
        | none => rw [hps] at h; exact absurd h (by simp)
        | some p =>
          obtain ⟨k, rest⟩ := p
          rw [hps] at h
          replace h : (match skipWs rest with
              | [] => none
              | d :: rest2 =>
                if d = ':' then
                  match parseStep f (.val (skipWs rest2)) with
                  | none => none
                  | some (x, rest3) =>
                    match skipWs rest3 with
                    | [] => none
                    | e :: rest4 =>
                      if e = ',' then
                        parseStep f (.members (insertKV acc k x) (skipWs rest4))
                      else if e = rcb then
                        some (Json.obj (insertKV acc k x), rest4)
                      else none
                else none) = some (v, r) := h
          cases hsk : skipWs rest with
          | nil => rw [hsk] at h; exact absurd h (by simp)
          | cons d rest2 =>
            rw [hsk] at h
            replace h : (if d = ':' then
                  match parseStep f (.val (skipWs rest2)) with
                  | none => none
                  | some (x, rest3) =>
                    match skipWs rest3 with
                    | [] => none
                    | e :: rest4 =>
                      if e = ',' then
                        parseStep f (.members (insertKV acc k x) (skipWs rest4))
                      else if e = rcb then
                        some (Json.obj (insertKV acc k x), rest4)
                      else none
                else none) = some (v, r) := h
            by_cases hd : d = ':'
            · simp only [if_pos hd] at h
              cases hv2 : parseStep f (.val (skipWs rest2)) with
              | none => rw [hv2] at h; exact absurd h (by simp)
              | some q =>
                obtain ⟨x, rest3⟩ := q
                rw [hv2] at h
                replace h : (match skipWs rest3 with
                    | [] => none
                    | e :: rest4 =>
                      if e = ',' then
                        parseStep f (.members (insertKV acc k x) (skipWs rest4))
                      else if e = rcb then
                        some (Json.obj (insertKV acc k x), rest4)
                      else none) = some (v, r) := h
                cases hsk3 : skipWs rest3 with
                | nil => rw [hsk3] at h; exact absurd h (by simp)
                | cons e rest4 =>
                  rw [hsk3] at h
                  replace h : (if e = ',' then
                        parseStep f (.members (insertKV acc k x) (skipWs rest4))
                      else if e = rcb then
                        some (Json.obj (insertKV acc k x), rest4)
                      else none) = some (v, r) := h
                  by_cases he : e = ','
                  · simp only [if_pos he] at h
                    exact ih (insertKV acc k x) (skipWs rest4) v r h
                  · by_cases he2 : e = rcb
                    · simp only [if_neg he, if_pos he2, Option.some.injEq,
                        Prod.mk.injEq] at h
                      exact ⟨insertKV acc k x, h.1.symm⟩
                    · simp only [if_neg he, if_neg he2] at h
                      exact absurd h (by simp)
            · simp only [if_neg hd] at h
              exact absurd h (by simp)
      · simp only [if_neg h1] at h
        exact absurd h (by simp)

theorem parseStep_val_obj (f : Nat) (t : List Char) (v : Json) (r : List Char)
    (h : parseStep (f + 1) (.val (lcb :: t)) = some (v, r)) :
    ∃ mm, v = Json.obj mm := by
  replace h : (if (skipWs t).head? = some rcb then
      some (Json.obj JsonMembers.nil, (skipWs t).tail)
    else parseStep f (.members .nil (skipWs t))) = some (v, r) := h
  by_cases h3 : (skipWs t).head? = some rcb
  · rw [if_pos h3] at h
    simp only [Option.some.injEq, Prod.mk.injEq] at h
    exact ⟨.nil, h.1.symm⟩
  · rw [if_neg h3] at h
    exact parse_members_obj f .nil (skipWs t) v r h

theorem jsonParse_obj_of_head (t : List Char) (v : Json)
    (h : jsonParse (lcb :: t) = some v) : ∃ mm, v = Json.obj mm := by
  unfold jsonParse at h
  rw [skipWs_no_op (show isJsonWs lcb = false by decide)] at h
  rw [show 2 * (lcb :: t).length + 2 = (2 * t.length + 3) + 1 by
    simp [List.length_cons]; omega] at h
  cases hps : parseStep (2 * t.length + 3 + 1) (.val (lcb :: t)) with
  | none => rw [hps] at h; exact absurd h (by simp)
  | some p =>
    obtain ⟨x, rest⟩ := p
    rw [hps] at h
    replace h : (if skipWs rest = [] then some x else none) = some v := h
    by_cases hr : skipWs rest = []
    · rw [if_pos hr] at h
      simp only [Option.some.injEq] at h
      subst h
      exact parseStep_val_obj (2 * t.length + 3) t x rest hps
    · rw [if_neg hr] at h
      exact absurd h (by simp)

theorem jsonParse_wf (s : List Char) (v : Json) (h : jsonParse s = some v) :
    wfJ v = true := by
  unfold jsonParse at h
  cases hps : parseStep (2 * s.length + 2) (.val (skipWs s)) with
  | none => rw [hps] at h; exact absurd h (by simp)
  | some p =>
    obtain ⟨x, rest⟩ := p
    rw [hps] at h
    replace h : (if skipWs rest = [] then some x else none) = some v := h
    by_cases hr : skipWs rest = []
    · rw [if_pos hr] at h
      simp only [Option.some.injEq] at h
      subst h
      exact (parse_wf_all (2 * s.length + 2)).1 (skipWs s) x rest hps
    · rw [if_neg hr] at h
      exact absurd h (by simp)

/- ===== C7 machinery: a serialized object round-trips through loads ===== -/

theorem jsonParse_dumps (v : Json) (hwf : wfJ v = true) :
    jsonParse (dumps v) = some v := by
  unfold jsonParse
  have h1 : skipWs (dumps v) = dumps v := by
    obtain ⟨c, cs, heq, hws, -, -⟩ := dumps_head_spec v
    rw [heq, skipWs_no_op hws]
  rw [h1]
  have hfu : fuelVal v ≤ 2 * (dumps v).length + 2 := by
    have := fuelVal_le v
    omega
  have hstep := (parse_dumps_all (2 * (dumps v).length + 2)).1 v [] hwf hfu trivial
  rw [List.append_nil] at hstep
  rw [hstep]
  rfl

/- ===== C7 machinery: the candidate of a serialized object is itself ===== -/

theorem upToLastClose_concat (X : List Char) :
    upToLastClose (X ++ [rcb]) = some (X ++ [rcb]) := by
  have h1 : (X ++ [rcb]).reverse = rcb :: X.reverse := by simp
  have h2 : List.dropWhile (fun c => !(c = rcb : Bool)) (rcb :: X.reverse) =
      rcb :: X.reverse := by
    rw [List.dropWhile_cons]
    simp
  unfold upToLastClose
  rw [h1, h2]
  rw [if_neg (by simp : ¬ (rcb :: X.reverse = []))]
  simp

theorem extractCandidate_dumps_obj (m : JsonMembers) :
    extractCandidate (dumps (Json.obj m)) = some (dumps (Json.obj m)) := by
  have hd : dumps (Json.obj m) = lcb :: (dumpsMembers m ++ [rcb]) := by simp [dumps]
  rw [hd]
  unfold extractCandidate
  rw [show afterFirstBrace (lcb :: (dumpsMembers m ++ [rcb])) =
    some (dumpsMembers m ++ [rcb]) by rw [afterFirstBrace, if_pos rfl]]
  simp only [upToLastClose_concat, Option.map_some']

theorem extractCandidate_head {text c : List Char}
    (h : extractCandidate text = some c) : ∃ t, c = lcb :: t := by
  unfold extractCandidate at h
  cases ha : afterFirstBrace text with
  | none => rw [ha] at h; exact absurd h (by simp)
  | some rr =>
    rw [ha] at h
    cases hu : upToLastClose rr with
    | none =>
      simp [hu] at h
    | some p =>
      simp only [hu, Option.map_some', Option.some.injEq] at h
      exact ⟨p, h.symm⟩

theorem subCloseGo_head (close : Char) (c : Char) (t : List Char)
    (hc : ¬ c = ',') : ∃ u, subCloseGo close (c :: t).length (c :: t) = c :: u := by
  rw [show (c :: t).length = t.length + 1 from rfl, subCloseGo, if_neg hc]
  exact ⟨_, rfl⟩

theorem repair_head (t : List Char) : ∃ u, repair (lcb :: t) = lcb :: u := by
  unfold repair subClose
  obtain ⟨u1, hu1⟩ := subCloseGo_head rcb lcb t (by decide)
  rw [hu1]
  exact subCloseGo_head ']' lcb u1 (by decide)

theorem extract_ok_shape (text : List Char) (v : Json)
    (h : extract_first_json text = Except.ok v) :
    ∃ c, extractCandidate text = some c ∧
      (jsonParse c = some v ∨ jsonParse (repair c) = some v) := by
  unfold extract_first_json at h
  cases hc : extractCandidate text with
  | none => rw [hc] at h; exact absurd h (by simp)
  | some c =>
    rw [hc] at h
    refine ⟨c, rfl, ?_⟩
    cases hp : jsonParse c with
    | some w =>
      simp only [hp, Except.ok.injEq] at h
      subst h
      exact Or.inl rfl
    | none =>
      simp only [hp] at h
      cases hp2 : jsonParse (repair c) with
      | some w =>
        simp only [hp2, Except.ok.injEq] at h
        subst h
        exact Or.inr rfl
      | none =>
        simp only [hp2] at h
        exact absurd h (by simp)

/- ===== C7: extraction is idempotent ===== -/

/-- C7: whenever extraction succeeds on a raw text, the parsed value is an
object; re-serializing it to JSON text and extracting again succeeds and
yields the same structured value. -/
theorem extraction_idempotent (text : List Char) (v : Json)
    (h : extract_first_json text = Except.ok v) :
    extract_first_json (dumps v) = Except.ok v := by
  obtain ⟨c, hc, hp⟩ := extract_ok_shape text v h
  obtain ⟨t, ht⟩ := extractCandidate_head hc
  have hobj : ∃ mm, v = Json.obj mm := by
    rcases hp with hp | hp
    · rw [ht] at hp
      exact jsonParse_obj_of_head t v hp
    · obtain ⟨u, hu⟩ := repair_head t
      rw [ht, hu] at hp
      exact jsonParse_obj_of_head u v hp
  have hwf : wfJ v = true := by
    rcases hp with hp | hp
    · exact jsonParse_wf _ v hp
    · exact jsonParse_wf _ v hp
  obtain ⟨mm, hmm⟩ := hobj
  subst hmm
  have hec := extractCandidate_dumps_obj mm
  have hjp := jsonParse_dumps (Json.obj mm) hwf
  simp only [extract_first_json, hec, hjp]

def c7text : List Char :=
  ("noise \x7b\"a\": \x5b1, true, null, \"s\"\x5d, \"b\": -20\x7d").data

def c7val : Json :=
  Json.obj (.cons "a".data
    (Json.arr (.cons (Json.num 1) (.cons (Json.bool true)
      (.cons Json.null (.cons (Json.str "s".data) .nil)))))
    (.cons "b".data (Json.num (-20)) .nil))

/-- C7 witness: extraction parses a concrete noisy response, and the theorem
applies to its result: extracting the re-serialization returns the same
value. -/
theorem extraction_idempotent_witness :
    extract_first_json c7text = Except.ok c7val ∧
    extract_first_json (dumps c7val) = Except.ok c7val :=
  ⟨rfl, extraction_idempotent c7text c7val rfl⟩
